import Mathlib

/-!
Verification of the agebrock-mimo document engine (a vendored mingo build
plus a thin collection facade) against its natural-language specification.

The JavaScript source is embedded shallowly:
* raw JSON-like values become the inductive type `Val` (numbers are modelled
  as integers plus a distinguished NaN; `undefined` results are modelled with
  `Option Val` at the places where the source can produce `undefined`);
* in-place mutation becomes explicit state passing (functions return the
  updated value);
* thrown errors become `Except String`;
* the work-stack loop of `isEqual` and the recursive closures of the source
  are rendered as structural recursion, which yields the same results on the
  tree-shaped values the engine processes;
* JavaScript's native stable `Array.prototype.sort` is modelled with the
  stable `List.insertionSort`.
-/

namespace Mimo

/-- Model of the engine's raw values: null, booleans, numbers (integers plus
NaN), strings, arrays and plain objects (ordered field lists with, in
practice, pairwise distinct keys).  JavaScript `undefined` is represented by
`Option.none` at the interfaces that can produce it. -/
inductive Val : Type where
  | vnull : Val
  | vbool : Bool → Val
  | vint : Int → Val
  | vnan : Val
  | vstr : String → Val
  | varr : List Val → Val
  | vobj : List (String × Val) → Val
  deriving Repr

open Val

mutual
/-- Strict structural equality on `Val` (field order significant), used only
to furnish decidable equality on the model type. -/
def vbeq : Val → Val → Bool
  | .vnull, .vnull => true
  | .vbool a, .vbool b => a == b
  | .vint a, .vint b => a == b
  | .vnan, .vnan => true
  | .vstr a, .vstr b => a == b
  | .varr a, .varr b => vbeqList a b
  | .vobj a, .vobj b => vbeqFields a b
  | _, _ => false

/-- Structural equality of value lists. -/
def vbeqList : List Val → List Val → Bool
  | [], [] => true
  | a :: as, b :: bs => vbeq a b && vbeqList as bs
  | _, _ => false

/-- Structural equality of field lists. -/
def vbeqFields : List (String × Val) → List (String × Val) → Bool
  | [], [] => true
  | (k, a) :: as, (l, b) :: bs => k == l && vbeq a b && vbeqFields as bs
  | _, _ => false
end

mutual
theorem vbeq_iff : ∀ a b : Val, vbeq a b = true ↔ a = b
  | .vnull, b => by cases b <;> simp [vbeq]
  | .vbool a, b => by cases b <;> simp [vbeq]
  | .vint a, b => by cases b <;> simp [vbeq]
  | .vnan, b => by cases b <;> simp [vbeq]
  | .vstr a, b => by cases b <;> simp [vbeq]
  | .varr a, b => by
    cases b <;> simp [vbeq]
    exact vbeqList_iff a _
  | .vobj a, b => by
    cases b <;> simp [vbeq]
    exact vbeqFields_iff a _

theorem vbeqList_iff : ∀ a b : List Val, vbeqList a b = true ↔ a = b
  | [], b => by cases b <;> simp [vbeqList]
  | a :: as, b => by
    cases b with
    | nil => simp [vbeqList]
    | cons b bs => simp [vbeqList, vbeq_iff a b, vbeqList_iff as bs]

theorem vbeqFields_iff : ∀ a b : List (String × Val), vbeqFields a b = true ↔ a = b
  | [], b => by cases b <;> simp [vbeqFields]
  | (k, a) :: as, b => by
    cases b with
    | nil => simp [vbeqFields]
    | cons p bs =>
      obtain ⟨l, v⟩ := p
      simp [vbeqFields, vbeq_iff a v, vbeqFields_iff as bs, and_assoc]
end

instance : DecidableEq Val := fun a b => decidable_of_iff _ (vbeq_iff a b)

/-- The tag produced by `Object.prototype.toString`, as used by `getType`. -/
def getType : Val → String
  | .vnull => "Null"
  | .vbool _ => "Boolean"
  | .vint _ => "Number"
  | .vnan => "Number"
  | .vstr _ => "String"
  | .varr _ => "Array"
  | .vobj _ => "Object"

/-- `SORT_ORDER_BY_TYPE` rank of a value; `none` stands for `undefined`
(rank 0, like null). -/
def sortRank : Option Val → Int
  | none => 0
  | some .vnull => 0
  | some (.vbool _) => 5
  | some (.vint _) => 1
  | some .vnan => 1
  | some (.vstr _) => 2
  | some (.varr _) => 4
  | some (.vobj _) => 3

/-- `isNumber = v => !isNaN(v) && typeof v === "number"`; NaN is rejected. -/
def isNumber : Val → Bool
  | .vint _ => true
  | _ => false

/-- `isObject` recognises plain object literals. -/
def isObject : Val → Bool
  | .vobj _ => true
  | _ => false

/-- `isArray`. -/
def isArray : Val → Bool
  | .varr _ => true
  | _ => false

/-- Plain JavaScript truthiness `!!v` of a modelled value. -/
def truthyJs : Val → Bool
  | .vnull => false
  | .vbool b => b
  | .vint n => n != 0
  | .vnan => false
  | .vstr s => s ≠ ""
  | .varr _ => true
  | .vobj _ => true

/-- `truthy(arg, strict)` from the source: `!!arg || strict && arg === ""`. -/
def truthy (v : Val) (strict : Bool) : Bool :=
  truthyJs v || (strict && v == .vstr "")

/-- Field lookup `obj[key]` on an ordered association list. -/
def alookup {β : Type} : List (String × β) → String → Option β
  | [], _ => none
  | (k, v) :: rest, key => if k == key then some v else alookup rest key

/-- Field lookup `obj[key]` on an object's field list. -/
def lookupField : List (String × Val) → String → Option Val := alookup

mutual
/-- `isEqual` from the source.  The explicit work-stack loop is modelled by
structural recursion: values of different constructors are unequal,
string-convertible built-ins compare by their canonical strings (so NaN
equals NaN), arrays compare pointwise, and objects compare by key set plus
per-key recursion. -/
def isEqual : Val → Val → Bool
  | .vnull, .vnull => true
  | .vbool a, .vbool b => a == b
  | .vint a, .vint b => a == b
  | .vnan, .vnan => true
  | .vstr a, .vstr b => a == b
  | .varr a, .varr b => a.length == b.length && isEqualElems a b
  | .vobj fa, .vobj fb =>
    let ka := fa.map Prod.fst
    let kb := fb.map Prod.fst
    ka.length == kb.length && ((ka ++ kb).dedup.length == ka.length) &&
      isEqualFields fa fb
  | _, _ => false

/-- Pointwise array comparison used by `isEqual` (the source pushes the
index pairs on its work stack). -/
def isEqualElems : List Val → List Val → Bool
  | [], [] => true
  | a :: as, b :: bs => isEqual a b && isEqualElems as bs
  | _, _ => false

/-- Per-key comparison `args.push([a[k], b[k]])` of the object branch. -/
def isEqualFields : List (String × Val) → List (String × Val) → Bool
  | [], _ => true
  | (k, va) :: rest, fb =>
    (match lookupField fb k with
     | some vb => isEqual va vb
     | none => false) && isEqualFields rest fb
end

/-- `isEqual` lifted to possibly-`undefined` operands: `undefined` equals
only `undefined` (constructor mismatch otherwise). -/
def isEqualOV : Option Val → Option Val → Bool
  | none, none => true
  | some a, some b => isEqual a b
  | _, _ => false

mutual
/-- Element conversion inside `Array.prototype.toString`'s comma join
(null becomes the empty string, nested arrays join recursively). -/
def jsJoinElem : Val → String
  | .vnull => ""
  | .vbool b => if b then "true" else "false"
  | .vint n => toString n
  | .vnan => "NaN"
  | .vstr s => s
  | .varr l => jsJoinList l
  | .vobj _ => "[object Object]"

/-- Comma join of array elements, as in `Array.prototype.toString`. -/
def jsJoinList : List Val → String
  | [] => ""
  | [a] => jsJoinElem a
  | a :: rest => jsJoinElem a ++ "," ++ jsJoinList rest
end

/-- The generic `a < b` probe of `compare$1` for same-rank values outside
the number/string/date fast path: booleans coerce to 0/1, arrays compare by
their joined string form, plain objects (both `"[object Object]"`) never
compare smaller. -/
def ltProbe : Val → Val → Bool
  | .vbool a, .vbool b => !a && b
  | .varr a, .varr b => jsJoinList a < jsJoinList b
  | _, _ => false

/-- `compare$1`, the MongoDB-order three-way comparison, on
possibly-`undefined` operands. -/
def compare1 (a b : Option Val) : Int :=
  let u := sortRank a
  let v := sortRank b
  if u ≠ v then u - v
  else if u = 1 then
    match a, b with
    | some (.vint x), some (.vint y) => if x < y then -1 else if y < x then 1 else 0
    | _, _ => 0
  else if u = 2 then
    match a, b with
    | some (.vstr x), some (.vstr y) => if x < y then -1 else if y < x then 1 else 0
    | _, _ => 0
  else if isEqualOV a b then 0
  else
    match a, b with
    | some x, some y => if ltProbe x y then -1 else if ltProbe y x then 1 else 0
    | _, _ => 0

/-- `sortBy(collection, keyFn, comparator)` from the source: elements whose
key is null/undefined are accumulated in `result`, the rest are paired with
their keys in `sorted`; `sorted` is then sorted by the comparator with the
native stable sort (modelled by `insertionSort`) and appended, via `into`,
after the nil-keyed elements. -/
def sortBy {α K : Type} (collection : List α) (keyFn : α → Nat → Option K)
    (comparator : K → K → Int) : List α :=
  if collection.isEmpty then collection
  else
    let acc := collection.enum.foldl
      (fun (acc : List (K × α) × List α) ix =>
        match keyFn ix.2 ix.1 with
        | none => (acc.1, acc.2 ++ [ix.2])
        | some k => (acc.1 ++ [(k, ix.2)], acc.2))
      ([], [])
    let sorted := List.insertionSort (fun a b : K × α => comparator a.1 b.1 ≤ 0) acc.1
    acc.2 ++ sorted.map Prod.snd

/-- The key/value pairs that `sortBy` feeds to the native sort. -/
def sortByPairs {α K : Type} (collection : List α) (keyFn : α → Nat → Option K) :
    List (K × α) :=
  collection.enum.filterMap (fun ix => (keyFn ix.2 ix.1).map (fun k => (k, ix.2)))

/-- The nil-keyed elements of the collection, in input order. -/
def sortByNilPart {α K : Type} (collection : List α) (keyFn : α → Nat → Option K) :
    List α :=
  (collection.enum.filter (fun ix => (keyFn ix.2 ix.1).isNone)).map Prod.snd

theorem sortBy_foldl_eq {α K : Type} (keyFn : α → Nat → Option K)
    (l : List (Nat × α)) (acc1 : List (K × α)) (acc2 : List α) :
    l.foldl
      (fun (acc : List (K × α) × List α) ix =>
        match keyFn ix.2 ix.1 with
        | none => (acc.1, acc.2 ++ [ix.2])
        | some k => (acc.1 ++ [(k, ix.2)], acc.2))
      (acc1, acc2)
    = (acc1 ++ l.filterMap (fun ix => (keyFn ix.2 ix.1).map (fun k => (k, ix.2))),
       acc2 ++ (l.filter (fun ix => (keyFn ix.2 ix.1).isNone)).map Prod.snd) := by
  induction l generalizing acc1 acc2 with
  | nil => simp
  | cons hd tl ih =>
    cases h : keyFn hd.2 hd.1 with
    | none =>
      simp only [List.foldl_cons, h, List.filterMap_cons, List.filter_cons, ih]
      simp [h]
    | some k =>
      simp only [List.foldl_cons, h, List.filterMap_cons, List.filter_cons, ih]
      simp [h]

/-! ### Canonical stringification (`stringify`) and deep-equality agreement -/

/-- Escaping applied by `JSON.stringify` to string values (the
`STRING_CONVERTERS` entry for `String`); only the escapes relevant to the
model are included. -/
def jsonEscapeChar (c : Char) : String :=
  if c = '"' then "\\\"" else if c = '\\' then "\\\\" else String.singleton c

/-- `JSON.stringify` on a string value. -/
def jsonQuote (s : String) : String :=
  "\"" ++ String.join (s.data.map jsonEscapeChar) ++ "\""

/-- `objKeys.sort()` of the source, modelled with the stable sort used for
`Array.prototype.sort` throughout. -/
def sortStrings (l : List String) : List String :=
  List.insertionSort (fun a b : String => a ≤ b) l

mutual
/-- `stringify` from the source on tree-shaped (acyclic) values: scalars use
their `STRING_CONVERTERS` entry, arrays join their encoded elements in
brackets, plain objects emit `key:value` pairs with the keys sorted; the tag
prefix is empty because only plain objects are representable in `Val`.
The cycle check of the source can never fire on an inductive tree; the
cyclic case is modelled separately on `Heap`. -/
def stringify : Val → String
  | .vnull => "null"
  | .vbool b => if b then "true" else "false"
  | .vint n => toString n
  | .vnan => "NaN"
  | .vstr s => jsonQuote s
  | .varr l => "[" ++ String.intercalate "," (stringifyElems l) ++ "]"
  | .vobj fields =>
    let enc := stringifyFieldsEnc fields
    let objKeys := sortStrings (fields.map Prod.fst)
    "\x7b" ++
      String.intercalate ","
        (objKeys.map (fun k => k ++ ":" ++ ((alookup enc k).getD ""))) ++
      "\x7d"

/-- Encoded array elements, in order (`v.map(str)`). -/
def stringifyElems : List Val → List String
  | [] => []
  | v :: rest => stringify v :: stringifyElems rest

/-- Field values encoded ahead of the key sort, so that the sorted key loop
`objKeys.map(k => k + ":" + str(v[k]))` becomes a pure lookup. -/
def stringifyFieldsEnc : List (String × Val) → List (String × String)
  | [] => []
  | (k, v) :: rest => (k, stringify v) :: stringifyFieldsEnc rest
end

mutual
/-- Well-formed model values: object field lists carry pairwise-distinct
keys, as JavaScript object literals always do. -/
def wfVal : Val → Bool
  | .vnull => true
  | .vbool _ => true
  | .vint _ => true
  | .vnan => true
  | .vstr _ => true
  | .varr l => wfElems l
  | .vobj fields => decide (fields.map Prod.fst).Nodup && wfFields fields

/-- Well-formedness of the elements of an array. -/
def wfElems : List Val → Bool
  | [] => true
  | v :: rest => wfVal v && wfElems rest

/-- Well-formedness of the values of a field list. -/
def wfFields : List (String × Val) → Bool
  | [] => true
  | (_, v) :: rest => wfVal v && wfFields rest
end

theorem alookup_stringifyFieldsEnc (fields : List (String × Val)) (k : String) :
    alookup (stringifyFieldsEnc fields) k = (alookup fields k).map stringify := by
  induction fields with
  | nil => simp [alookup, stringifyFieldsEnc]
  | cons p rest ih =>
    obtain ⟨k0, v0⟩ := p
    by_cases h : k0 = k
    · simp [alookup, stringifyFieldsEnc, h]
    · simp [alookup, stringifyFieldsEnc, h, ih]

theorem alookup_isSome_of_mem_keys {β : Type} {fields : List (String × β)} {k : String}
    (h : k ∈ fields.map Prod.fst) : ∃ v, alookup fields k = some v := by
  induction fields with
  | nil => simp at h
  | cons p rest ih =>
    obtain ⟨k0, v0⟩ := p
    by_cases hk : k0 = k
    · exact ⟨v0, by simp [alookup, hk]⟩
    · simp only [List.map_cons, List.mem_cons] at h
      rcases h with h | h
      · exact absurd h.symm hk
      · obtain ⟨v, hv⟩ := ih h
        exact ⟨v, by simp [alookup, hk, hv]⟩

theorem wfVal_of_alookup {fb : List (String × Val)} {k : String} {v : Val}
    (hwf : wfFields fb = true) (h : alookup fb k = some v) : wfVal v = true := by
  induction fb with
  | nil => simp [alookup] at h
  | cons p rest ih =>
    obtain ⟨k0, v0⟩ := p
    simp only [wfFields, Bool.and_eq_true] at hwf
    by_cases hk : k0 = k
    · simp [alookup, hk] at h
      exact h ▸ hwf.1
    · simp [alookup, hk] at h
      exact ih hwf.2 h

theorem keys_perm_of_isEqual_checks {ka kb : List String}
    (hna : ka.Nodup) (hnb : kb.Nodup) (hlen : ka.length = kb.length)
    (hset : (ka ++ kb).dedup.length = ka.length) : ka.Perm kb := by
  have hunion : (ka ++ kb).toFinset = ka.toFinset ∪ kb.toFinset :=
    List.toFinset_append
  have hcard : (ka ++ kb).toFinset.card = ka.length := by
    rw [List.card_toFinset, hset]
  have hcarda : ka.toFinset.card = ka.length := List.toFinset_card_of_nodup hna
  have hsub : ka.toFinset ⊆ (ka ++ kb).toFinset := by
    rw [hunion]; exact Finset.subset_union_left
  have heq : ka.toFinset = (ka ++ kb).toFinset :=
    Finset.eq_of_subset_of_card_le hsub (by rw [hcard, hcarda])
  have hsubb : kb.toFinset ⊆ ka.toFinset := by
    rw [heq, hunion]; exact Finset.subset_union_right
  have hcardb : kb.toFinset.card = kb.length := List.toFinset_card_of_nodup hnb
  have : kb.toFinset = ka.toFinset :=
    Finset.eq_of_subset_of_card_le hsubb (by rw [hcarda, hcardb, hlen])
  exact List.perm_of_nodup_nodup_toFinset_eq hna hnb this.symm

/-! ### Heap model for cyclic documents

A self-referential document cannot be represented by the inductive tree
`Val`, so `stringify` is additionally modelled over an explicit heap of
nodes addressed by indices.  This second rendering of the same source
function keeps its structure — string-convertible scalars return before the
cycle check, containers check the visited set, then recurse through their
members — and threads the `cycle` visited set explicitly.  The fuel
argument only serves to make the definition total; it is provably
irrelevant for well-formed heaps. -/

/-- Scalar payload of a heap node. -/
inductive HScalar : Type where
  | hnull : HScalar
  | hbool : Bool → HScalar
  | hint : Int → HScalar
  | hnan : HScalar
  | hstr : String → HScalar
  deriving Repr, DecidableEq

/-- A heap node: a scalar, an array of references, or an object whose field
values are references. -/
inductive HNode : Type where
  | hscalar : HScalar → HNode
  | harr : List Nat → HNode
  | hobj : List (String × Nat) → HNode
  deriving Repr, DecidableEq

/-- A heap of nodes addressed by list position. -/
structure Heap : Type where
  nodes : List HNode
  deriving Repr, DecidableEq

/-- The `STRING_CONVERTERS` rendering of a scalar node. -/
def scalarString : HScalar → String
  | .hnull => "null"
  | .hbool b => if b then "true" else "false"
  | .hint n => toString n
  | .hnan => "NaN"
  | .hstr s => jsonQuote s

/-- The message of `CYCLE_FOUND_ERROR`. -/
def cycleMsg : String := "mingo: cycle detected while processing object/array"

/-- Model-internal marker for exhausted fuel (unreachable on well-formed
heaps, see `strGo_fuel_classification`). -/
def fuelMsg : String := "model: fuel exhausted"

/-- Model-internal marker for a dangling reference (unreachable on
well-formed heaps). -/
def refMsg : String := "model: dangling reference"

/-- Error-propagating map over a list, the shape `v.map(str)` takes once
thrown errors are modelled with `Except`. -/
def exMapM {α β : Type} (f : α → Except String β) : List α → Except String (List β)
  | [] => .ok []
  | a :: rest =>
    match f a with
    | .error m => .error m
    | .ok b =>
      match exMapM f rest with
      | .error m => .error m
      | .ok bs => .ok (b :: bs)

/-- `stringify`'s recursive worker `str` on the heap model: scalars convert
directly (before any cycle check, as in the source), containers fail on a
revisited reference and otherwise recurse through their members with the
reference added to the visited set. -/
def strGo (h : Heap) : Nat → List Nat → Nat → Except String String
  | 0, _, _ => .error fuelMsg
  | fuel + 1, visited, r =>
    match h.nodes.get? r with
    | none => .error refMsg
    | some (.hscalar s) => .ok (scalarString s)
    | some (.harr elems) =>
      if r ∈ visited then .error cycleMsg
      else
        match exMapM (fun e => strGo h fuel (r :: visited) e) elems with
        | .error m => .error m
        | .ok parts => .ok ("[" ++ String.intercalate "," parts ++ "]")
    | some (.hobj fields) =>
      if r ∈ visited then .error cycleMsg
      else
        match exMapM (fun p : String × Nat =>
            match strGo h fuel (r :: visited) p.2 with
            | .error m => .error m
            | .ok s => .ok (p.1, s)) fields with
        | .error m => .error m
        | .ok enc =>
          .ok ("\x7b" ++
            String.intercalate ","
              ((sortStrings (fields.map Prod.fst)).map
                (fun k => k ++ ":" ++ ((alookup enc k).getD ""))) ++
            "\x7d")

/-- `stringify` on the heap model, started with an empty visited set and
enough fuel for the deepest possible visited chain. -/
def stringifyH (h : Heap) (r : Nat) : Except String String :=
  strGo h (h.nodes.length + 1) [] r

/-- The references a node holds. -/
def childRefs : HNode → List Nat
  | .hscalar _ => []
  | .harr elems => elems
  | .hobj fields => fields.map Prod.snd

/-- All references stored in the heap stay in range. -/
def wfHeap (h : Heap) : Bool :=
  h.nodes.all (fun node => (childRefs node).all (fun c => c < h.nodes.length))

/-- A container node (one that the cycle check applies to). -/
def isContainerNode : HNode → Bool
  | .hscalar _ => false
  | .harr _ => true
  | .hobj _ => true

/-- `b` is a member reference of the node at `a`. -/
def Edge (h : Heap) (a b : Nat) : Prop :=
  ∃ node, h.nodes.get? a = some node ∧ b ∈ childRefs node

/-- `tail` lists the successive references of a traversal path starting at
`r`. -/
def IsPath (h : Heap) : Nat → List Nat → Prop
  | _, [] => True
  | r, c :: rest => Edge h r c ∧ IsPath h c rest

/-- A document is self-referential exactly when some traversal path from
its root revisits a reference. -/
def cyclicFrom (h : Heap) (r : Nat) : Prop :=
  ∃ tail, IsPath h r tail ∧ ¬(r :: tail).Nodup

/-- The node at `x` exists and is a container. -/
def isContainerAt (h : Heap) (x : Nat) : Prop :=
  ∃ node, h.nodes.get? x = some node ∧ isContainerNode node = true

theorem exMapM_ok_forall {α β : Type} {f : α → Except String β} :
    ∀ {l : List α} {out : List β}, exMapM f l = .ok out →
    ∀ a ∈ l, ∃ b, f a = .ok b := by
  intro l
  induction l with
  | nil => intro out _ a ha; simp at ha
  | cons x rest ih =>
    intro out hmap a ha
    simp only [exMapM] at hmap
    cases hfx : f x with
    | error m => rw [hfx] at hmap; simp at hmap
    | ok b =>
      rw [hfx] at hmap
      cases hrest : exMapM f rest with
      | error m => rw [hrest] at hmap; simp at hmap
      | ok bs =>
        rcases List.mem_cons.mp ha with rfl | ha'
        · exact ⟨b, hfx⟩
        · exact ih hrest a ha'

theorem exMapM_classify {α β : Type} {f : α → Except String β} {e : String} :
    ∀ {l : List α}, (∀ a ∈ l, (∃ b, f a = .ok b) ∨ f a = .error e) →
    (∃ out, exMapM f l = .ok out) ∨ exMapM f l = .error e := by
  intro l
  induction l with
  | nil => intro _; exact Or.inl ⟨[], rfl⟩
  | cons x rest ih =>
    intro hall
    rcases hall x (List.mem_cons_self x rest) with ⟨b, hb⟩ | hb
    · rcases ih (fun a ha => hall a (List.mem_cons_of_mem x ha)) with ⟨out, hout⟩ | hout
      · exact Or.inl ⟨b :: out, by simp [exMapM, hb, hout]⟩
      · exact Or.inr (by simp [exMapM, hb, hout])
    · exact Or.inr (by simp [exMapM, hb])

theorem strGo_ok_container_step {h : Heap} {fuel : Nat} {visited : List Nat}
    {r : Nat} {s : String} {node : HNode}
    (hok : strGo h fuel visited r = .ok s)
    (hnode : h.nodes.get? r = some node)
    (hcont : isContainerNode node = true) :
    ∃ fuel', fuel = fuel' + 1 ∧ r ∉ visited ∧
      ∀ c ∈ childRefs node, ∃ s', strGo h fuel' (r :: visited) c = .ok s' := by
  cases fuel with
  | zero => simp [strGo, fuelMsg] at hok
  | succ fuel' =>
    refine ⟨fuel', rfl, ?_⟩
    cases node with
    | hscalar sc => simp [isContainerNode] at hcont
    | harr elems =>
      simp only [strGo, hnode] at hok
      by_cases hv : r ∈ visited
      · simp [hv] at hok
      · refine ⟨hv, ?_⟩
        rw [if_neg hv] at hok
        cases hmap : exMapM (fun e => strGo h fuel' (r :: visited) e) elems with
        | error m => rw [hmap] at hok; simp at hok
        | ok parts =>
          intro c hc
          exact exMapM_ok_forall hmap c hc
    | hobj fields =>
      simp only [strGo, hnode] at hok
      by_cases hv : r ∈ visited
      · simp [hv] at hok
      · refine ⟨hv, ?_⟩
        rw [if_neg hv] at hok
        cases hmap : exMapM (fun p : String × Nat =>
            match strGo h fuel' (r :: visited) p.2 with
            | .error m => .error m
            | .ok s => .ok (p.1, s)) fields with
        | error m => rw [hmap] at hok; simp at hok
        | ok enc =>
          intro c hc
          simp only [childRefs, List.mem_map] at hc
          obtain ⟨p, hp, rfl⟩ := hc
          obtain ⟨b, hb⟩ := exMapM_ok_forall hmap p hp
          cases hgo : strGo h fuel' (r :: visited) p.2 with
          | error m => rw [hgo] at hb; simp at hb
          | ok s' => exact ⟨s', rfl⟩

theorem edge_isContainerAt {h : Heap} {a b : Nat} (he : Edge h a b) :
    isContainerAt h a := by
  obtain ⟨node, hnode, hb⟩ := he
  refine ⟨node, hnode, ?_⟩
  cases node with
  | hscalar sc => simp [childRefs] at hb
  | harr elems => rfl
  | hobj fields => rfl

theorem strGo_ok_path_nodup {h : Heap} :
    ∀ (tail : List Nat) (fuel : Nat) (visited : List Nat) (r : Nat) (s : String),
    strGo h fuel visited r = .ok s → IsPath h r tail →
    (r :: tail).Nodup ∧ ∀ x ∈ r :: tail, isContainerAt h x → x ∉ visited := by
  intro tail
  induction tail with
  | nil =>
    intro fuel visited r s hok _
    refine ⟨List.nodup_singleton r, ?_⟩
    intro x hx hcont
    simp only [List.mem_singleton] at hx
    subst hx
    obtain ⟨node, hnode, hc⟩ := hcont
    obtain ⟨fuel', rfl, hnv, _⟩ := strGo_ok_container_step hok hnode hc
    exact hnv
  | cons c rest ih =>
    intro fuel visited r s hok hpath
    obtain ⟨hedge, hpath'⟩ := hpath
    obtain ⟨node, hnode, hc⟩ := hedge
    have hcont : isContainerNode node = true := by
      cases node with
      | hscalar sc => simp [childRefs] at hc
      | harr elems => rfl
      | hobj fields => rfl
    obtain ⟨fuel', rfl, hnv, hchild⟩ := strGo_ok_container_step hok hnode hcont
    obtain ⟨s', hs'⟩ := hchild c hc
    obtain ⟨hnd, hdisj⟩ := ih fuel' (r :: visited) c s' hs' hpath'
    constructor
    · refine List.nodup_cons.mpr ⟨?_, hnd⟩
      intro hr
      have := hdisj r hr ⟨node, hnode, hcont⟩
      exact this (List.mem_cons_self r visited)
    · intro x hx hcx
      rcases List.mem_cons.mp hx with rfl | hx'
      · exact hnv
      · intro hxv
        exact hdisj x hx' hcx (List.mem_cons_of_mem r hxv)

theorem nodup_bounded_length {l : List Nat} {n : Nat} (hnd : l.Nodup)
    (hb : ∀ x ∈ l, x < n) : l.length ≤ n := by
  have hsub : l.toFinset ⊆ Finset.range n := by
    intro x hx
    simp only [List.mem_toFinset] at hx
    exact Finset.mem_range.mpr (hb x hx)
  have := Finset.card_le_card hsub
  rwa [List.toFinset_card_of_nodup hnd, Finset.card_range] at this

theorem strGo_fuel_classification {h : Heap} (hwf : wfHeap h = true) :
    ∀ (fuel : Nat) (visited : List Nat) (r : Nat),
    visited.Nodup → (∀ x ∈ visited, x < h.nodes.length) → r < h.nodes.length →
    h.nodes.length < fuel + visited.length →
    (∃ s, strGo h fuel visited r = .ok s) ∨ strGo h fuel visited r = .error cycleMsg := by
  intro fuel
  induction fuel with
  | zero =>
    intro visited r hnd hb _ hfuel
    exact absurd (nodup_bounded_length hnd hb) (by omega)
  | succ fuel ih =>
    intro visited r hnd hb hr hfuel
    have hget : ∃ node, h.nodes.get? r = some node := by
      rw [List.get?_eq_getElem?]
      exact ⟨h.nodes[r], List.getElem?_eq_getElem hr⟩
    obtain ⟨node, hnode⟩ := hget
    have hnodemem : node ∈ h.nodes := by
      rw [List.get?_eq_getElem?] at hnode
      exact List.getElem?_mem hnode
    have hchildb : ∀ c ∈ childRefs node, c < h.nodes.length := by
      intro c hc
      have h1 := (List.all_eq_true.mp hwf) node hnodemem
      exact of_decide_eq_true (List.all_eq_true.mp h1 c hc)
    cases node with
    | hscalar sc =>
      exact Or.inl ⟨scalarString sc, by simp only [strGo]; rw [hnode]⟩
    | harr elems =>
      by_cases hv : r ∈ visited
      · refine Or.inr ?_
        simp only [strGo]
        rw [hnode]
        simp [hv]
      · have hrec : ∀ e ∈ elems,
            (∃ b, strGo h fuel (r :: visited) e = .ok b) ∨
              strGo h fuel (r :: visited) e = .error cycleMsg := by
          intro e he
          refine ih (r :: visited) e (List.nodup_cons.mpr ⟨hv, hnd⟩) ?_ ?_ ?_
          · intro x hx
            rcases List.mem_cons.mp hx with rfl | hx'
            · exact hr
            · exact hb x hx'
          · exact hchildb e he
          · simp only [List.length_cons]; omega
        rcases exMapM_classify hrec with ⟨out, hout⟩ | hout
        · refine Or.inl ⟨"[" ++ String.intercalate "," out ++ "]", ?_⟩
          simp only [strGo]
          rw [hnode]
          simp only [if_neg hv]
          rw [hout]
        · refine Or.inr ?_
          simp only [strGo]
          rw [hnode]
          simp only [if_neg hv]
          rw [hout]
    | hobj fields =>
      by_cases hv : r ∈ visited
      · refine Or.inr ?_
        simp only [strGo]
        rw [hnode]
        simp [hv]
      · have hrec : ∀ p ∈ fields,
            (∃ b, (match strGo h fuel (r :: visited) (p : String × Nat).2 with
              | .error m => (.error m : Except String (String × String))
              | .ok s => .ok (p.1, s)) = .ok b) ∨
              (match strGo h fuel (r :: visited) (p : String × Nat).2 with
              | .error m => (.error m : Except String (String × String))
              | .ok s => .ok (p.1, s)) = .error cycleMsg := by
          intro p hp
          have hpc : p.2 ∈ childRefs (.hobj fields) := by
            simp only [childRefs, List.mem_map]
            exact ⟨p, hp, rfl⟩
          have := ih (r :: visited) p.2 (List.nodup_cons.mpr ⟨hv, hnd⟩)
            (by
              intro x hx
              rcases List.mem_cons.mp hx with rfl | hx'
              · exact hr
              · exact hb x hx')
            (hchildb p.2 hpc)
            (by simp only [List.length_cons]; omega)
          rcases this with ⟨s, hs⟩ | hs
          · exact Or.inl ⟨(p.1, s), by rw [hs]⟩
          · exact Or.inr (by rw [hs])
        rcases exMapM_classify hrec with ⟨out, hout⟩ | hout
        · refine Or.inl ⟨"\x7b" ++
            String.intercalate ","
              ((sortStrings (fields.map Prod.fst)).map
                (fun k => k ++ ":" ++ ((alookup out k).getD ""))) ++
            "\x7d", ?_⟩
          simp only [strGo]
          rw [hnode]
          simp only [if_neg hv]
          rw [hout]
        · refine Or.inr ?_
          simp only [strGo]
          rw [hnode]
          simp only [if_neg hv]
          rw [hout]

mutual
theorem stringify_congr : ∀ a b : Val, wfVal a = true → wfVal b = true →
    isEqual a b = true → stringify a = stringify b
  | .vnull, b, _, _, h => by cases b <;> simp_all [isEqual]
  | .vbool x, b, _, _, h => by cases b <;> simp_all [isEqual]
  | .vint x, b, _, _, h => by cases b <;> simp_all [isEqual]
  | .vnan, b, _, _, h => by cases b <;> simp_all [isEqual]
  | .vstr x, b, _, _, h => by cases b <;> simp_all [isEqual]
  | .varr l, b, hwa, hwb, h => by
    cases b with
    | varr bs =>
      simp only [isEqual, Bool.and_eq_true, beq_iff_eq] at h
      simp only [wfVal] at hwa hwb
      have := stringifyElems_congr l bs hwa hwb h.2
      simp [stringify, this]
    | vnull => simp [isEqual] at h
    | vbool _ => simp [isEqual] at h
    | vint _ => simp [isEqual] at h
    | vnan => simp [isEqual] at h
    | vstr _ => simp [isEqual] at h
    | vobj _ => simp [isEqual] at h
  | .vobj fa, b, hwa, hwb, h => by
    cases b with
    | vobj fb =>
      simp only [isEqual, Bool.and_eq_true, beq_iff_eq] at h
      obtain ⟨⟨hlen, hset⟩, hfields⟩ := h
      simp only [wfVal, Bool.and_eq_true, decide_eq_true_eq] at hwa hwb
      have hperm : (fa.map Prod.fst).Perm (fb.map Prod.fst) :=
        keys_perm_of_isEqual_checks hwa.1 hwb.1 hlen hset
      have hkeys : sortStrings (fa.map Prod.fst) = sortStrings (fb.map Prod.fst) := by
        refine List.eq_of_perm_of_sorted
          (((List.perm_insertionSort _ _).trans hperm).trans
            (List.perm_insertionSort _ _).symm)
          (List.sorted_insertionSort _ _) (List.sorted_insertionSort _ _)
      simp only [stringify]
      rw [hkeys]
      have hmap : (sortStrings (fb.map Prod.fst)).map
            (fun k => k ++ ":" ++ ((alookup (stringifyFieldsEnc fa) k).getD ""))
          = (sortStrings (fb.map Prod.fst)).map
            (fun k => k ++ ":" ++ ((alookup (stringifyFieldsEnc fb) k).getD "")) := by
        refine List.map_congr_left ?_
        intro k hk
        have hk' : k ∈ fb.map Prod.fst :=
          (List.mem_insertionSort (r := fun a b : String => a ≤ b)).mp hk
        have hk'' : k ∈ fa.map Prod.fst := hperm.mem_iff.mpr hk'
        obtain ⟨va, hva⟩ := alookup_isSome_of_mem_keys hk''
        obtain ⟨vb, hvb, hstr⟩ :=
          stringifyFields_lookup_congr fa fb hwa.2 hwb.2 hfields k va hva
        rw [alookup_stringifyFieldsEnc, alookup_stringifyFieldsEnc, hva, hvb]
        simp [hstr]
      rw [hmap]
    | vnull => simp [isEqual] at h
    | vbool _ => simp [isEqual] at h
    | vint _ => simp [isEqual] at h
    | vnan => simp [isEqual] at h
    | vstr _ => simp [isEqual] at h
    | varr _ => simp [isEqual] at h

theorem stringifyElems_congr : ∀ as bs : List Val, wfElems as = true →
    wfElems bs = true → isEqualElems as bs = true →
    stringifyElems as = stringifyElems bs
  | [], bs, _, _, h => by cases bs <;> simp_all [isEqualElems, stringifyElems]
  | a :: as, bs, hwa, hwb, h => by
    cases bs with
    | nil => simp [isEqualElems] at h
    | cons b bs =>
      simp only [isEqualElems, Bool.and_eq_true] at h
      simp only [wfElems, Bool.and_eq_true] at hwa hwb
      have h1 := stringify_congr a b hwa.1 hwb.1 h.1
      have h2 := stringifyElems_congr as bs hwa.2 hwb.2 h.2
      simp [stringifyElems, h1, h2]

theorem stringifyFields_lookup_congr : ∀ fa fb : List (String × Val),
    wfFields fa = true → wfFields fb = true → isEqualFields fa fb = true →
    ∀ (k : String) (va : Val), alookup fa k = some va →
      ∃ vb, alookup fb k = some vb ∧ stringify va = stringify vb
  | [], _, _, _, _, k, va, hva => by simp [alookup] at hva
  | (k0, v0) :: rest, fb, hwa, hwb, h, k, va, hva => by
    simp only [isEqualFields, Bool.and_eq_true] at h
    simp only [wfFields, Bool.and_eq_true] at hwa
    by_cases hk : k0 = k
    · subst hk
      simp only [alookup] at hva
      simp at hva
      obtain ⟨hm, _⟩ := h
      simp only [lookupField] at hm
      cases hlb : alookup fb k0 with
      | none => simp [hlb] at hm
      | some vb =>
        rw [hlb] at hm
        refine ⟨vb, rfl, ?_⟩
        have hwvb := wfVal_of_alookup hwb hlb
        subst hva
        exact stringify_congr v0 vb hwa.1 hwvb hm
    · have hva' : alookup rest k = some va := by
        simpa [alookup, hk] using hva
      exact stringifyFields_lookup_congr rest fb hwa.2 hwb h.2 k va hva'
end

/-! ### Path resolution (`resolve`) -/

/-- `/^\d+$/` — a purely numeric path segment. -/
def isDigits (s : String) : Bool :=
  !s.isEmpty && s.data.all (fun c => c.isDigit)

/-- Numeric value of a digits-only segment. -/
def strToNat (s : String) : Nat :=
  s.data.foldl (fun acc c => acc * 10 + (c.toNat - 48)) 0

/-- `selector.split(".")`, implemented on the character list so that it
reduces inside the kernel. -/
def splitOnCharAux (sep : Char) : List Char → List Char → List String
  | [], cur => [String.mk cur.reverse]
  | c :: rest, cur =>
    if c = sep then String.mk cur.reverse :: splitOnCharAux sep rest []
    else splitOnCharAux sep rest (c :: cur)

/-- `selector.split(".")`. -/
def splitDot (s : String) : List String :=
  splitOnCharAux '.' s.data []

mutual
/-- Height of a value tree, used only to seed the fuel of `resolve`. -/
def vheight : Val → Nat
  | .varr l => vheightElems l + 1
  | .vobj fields => vheightFields fields + 1
  | _ => 1

/-- Height of a list of values. -/
def vheightElems : List Val → Nat
  | [] => 0
  | v :: rest => max (vheight v) (vheightElems rest)

/-- Height of a field list. -/
def vheightFields : List (String × Val) → Nat
  | [] => 0
  | (_, v) :: rest => max (vheight v) (vheightFields rest)
end

/-- `getValue(obj, key)`: property access that yields `undefined` on
non-object-like values; arrays are indexed by numeric segments (their
non-element properties are outside the model). -/
def getValue (v : Val) (key : String) : Option Val :=
  match v with
  | .vobj fields => alookup fields key
  | .varr elems =>
    if isDigits key then elems.get? (strToNat key) else none
  | _ => none

/-- `unwrap(arr, depth)`: collapse singleton arrays up to `depth` times. -/
def unwrapV : Val → Nat → Val
  | v, 0 => v
  | v, d + 1 =>
    match v with
    | .varr [x] => unwrapV x d
    | _ => v

/-- `isNil` on a possibly-`undefined` value. -/
def isNilO : Option Val → Bool
  | none => true
  | some .vnull => true
  | _ => false

/-- The loop of `resolve2`: walks the remaining path, broadcasting over an
array met at a non-numeric segment (collecting the defined results and
bumping the shared `depth` counter), with the `i === 0 && depth > 0` guard
stopping a nested second descent.  The fuel argument only makes the nested
recursion structural; `resolve` seeds it above the depth any traversal of
the value can reach. -/
def resolveGo : Nat → Option Val → List String → Nat → Bool → (Option Val × Nat)
  | 0, _, _, depth, _ => (none, depth)
  | _ + 1, value, [], depth, _ => (value, depth)
  | fuel + 1, value, field :: rest, depth, isFirst =>
    let isText := !(isDigits field)
    match value with
    | some (.varr elems) =>
      if isText then
        if isFirst && depth > 0 then (some (.varr elems), depth)
        else
          let acc := elems.foldl
            (fun (acc : List Val × Nat) item =>
              match resolveGo fuel (some item) (field :: rest) acc.2 true with
              | (some x, d2) => (acc.1 ++ [x], d2)
              | (none, d2) => (acc.1, d2))
            ([], depth + 1)
          (some (.varr acc.1), acc.2)
      else
        match getValue (.varr elems) field with
        | none => (none, depth)
        | some v => resolveGo fuel (some v) rest depth false
    | some v =>
      match getValue v field with
      | none => (none, depth)
      | some v' => resolveGo fuel (some v') rest depth false
    | none => (none, depth)

/-- Is the value one of `JS_SIMPLE_TYPES` (no array, object or function)? -/
def isSimpleType : Val → Bool
  | .varr _ => false
  | .vobj _ => false
  | _ => true

/-- `resolve(obj, selector, options)`: simple-typed inputs short-circuit to
themselves, otherwise `resolve2` walks the dotted path; an array result is
unwrapped `depth` times when `unwrapArray` is requested. -/
def resolve (obj : Val) (selector : String) (unwrapArray : Bool) : Option Val :=
  if isSimpleType obj then some obj
  else
    let path := splitDot selector
    let fuel := vheight obj + path.length + 1
    let res := resolveGo fuel (some obj) path 0 true
    match res.1 with
    | some (.varr l) =>
      if unwrapArray then some (unwrapV (.varr l) res.2) else some (.varr l)
    | r => r

/-! ### Query predicates and the query compiler -/

/-- `flatten(xs, depth)` restricted to the non-negative depths the query
predicates use. -/
def flattenL : Nat → List Val → List Val
  | _, [] => []
  | 0, x :: rest => x :: flattenL 0 rest
  | n + 1, x :: rest =>
    match x with
    | .varr ys => flattenL n ys ++ flattenL (n + 1) rest
    | _ => x :: flattenL (n + 1) rest

/-- `$eq` predicate (`$eq$2`): equality per `isEqual`, null matching
undefined, or membership in an array operand, also after flattening it to
the selector's depth. -/
def qEq (a : Option Val) (b : Val) (depth : Nat) : Bool :=
  isEqualOV a (some b) ||
  (isNilO a && isNilO (some b)) ||
  (match a with
   | some (.varr elems) =>
     elems.any (fun x => isEqual b x) || (flattenL depth elems).any (fun x => isEqual b x)
   | _ => false)

/-- `compare(a, b, f)` used by the relational query predicates: some member
of the (array-wrapped) operand has the same type tag as `b` and satisfies
`f`. -/
def qCompare (a : Option Val) (b : Val) (f : Val → Val → Bool) : Bool :=
  match a with
  | some (.varr elems) => elems.any (fun x => getType x == getType b && f x b)
  | some x => getType x == getType b && f x b
  | none => false

/-- `$gt` predicate. -/
def qGt (a : Option Val) (b : Val) : Bool :=
  qCompare a b (fun x y => compare1 (some x) (some y) > 0)

/-- `$lt` predicate. -/
def qLt (a : Option Val) (b : Val) : Bool :=
  qCompare a b (fun x y => compare1 (some x) (some y) < 0)

/-- `isOperator`: the `/^\$[a-zA-Z0-9_]+$/` reserved-name syntax. -/
def isOperator (name : String) : Bool :=
  match name.data with
  | '$' :: rest => !rest.isEmpty && rest.all (fun c => c.isAlphanum || c = '_')
  | _ => false

/-- The value under a field key of a condition document: either a bare
value (normalised to `{$eq: ...}`) or an operator document whose keys are
reserved operator names. -/
inductive QVal : Type where
  | bare : Val → QVal
  | ops : List (String × Val) → QVal

mutual
/-- One top-level key of a condition document: a field path with its
expression, one of the whole-document logical operators, or `$where` (whose
JavaScript function is modelled as `Val → Val`, its result passed through
`truthy`). -/
inductive Entry : Type where
  | efield : String → QVal → Entry
  | eand : List Cond → Entry
  | eor : List Cond → Entry
  | enor : List Cond → Entry
  | ewhere : (Val → Val) → Entry

/-- A condition document: its top-level entries in key order. -/
inductive Cond : Type where
  | cond : List Entry → Cond
end

/-- A compiled predicate tagged with the operator name that
`processOperator` received when pushing it (the tag records which operator
produced each closure in `this.compiled`). -/
abbrev QPred : Type := String × (Val → Bool)

/-- `Query.test`: every compiled predicate must accept the document. -/
def testPreds (preds : List QPred) (obj : Val) : Bool :=
  preds.all (fun p => p.2 obj)

/-- `normalize(expr)` on the modelled expression shapes: a bare value
becomes `{$eq: value}`, an operator document is kept as is. -/
def normalizeQ : QVal → List (String × Val)
  | .bare v => [("$eq", v)]
  | .ops l => l

/-- `createQueryOperator`'s wrapper: resolve the selector with
`unwrapArray` and feed the value plus the selector-derived flatten depth to
the predicate. -/
def createQueryPred (selector : String) (pred : Option Val → Nat → Bool) :
    Val → Bool :=
  fun obj =>
    pred (resolve obj selector true) (max 1 ((splitDot selector).length - 1))

/-- The query-class operator registry fragment the model carries (`$eq`,
`$gt`, `$lt` for field operators); unknown names yield `none`, which
`processOperator` turns into the `unknown operator` error. -/
def compileQueryOp (selector : String) (op : String) (val : Val) :
    Option (Val → Bool) :=
  if op = "$eq" then some (createQueryPred selector (fun a dep => qEq a val dep))
  else if op = "$gt" then some (createQueryPred selector (fun a _ => qGt a val))
  else if op = "$lt" then some (createQueryPred selector (fun a _ => qLt a val))
  else none

/-- Compile every operator of a normalised field expression, in key order;
the first unknown operator aborts compilation. -/
def compileFieldOps (selector : String) : List (String × Val) →
    Except String (List QPred)
  | [] => .ok []
  | (op, val) :: rest =>
    match compileQueryOp selector op val with
    | none => .error ("unknown operator " ++ op)
    | some pred =>
      match compileFieldOps selector rest with
      | .error m => .error m
      | .ok others => .ok ((op, pred) :: others)

/-- The predicate `$where` compiles to: the stored function applied to the
document, coerced with `truthy` under the default strict mode. -/
def wherePredOf (f : Val → Val) : QPred :=
  ("$where", fun obj => truthy (f obj) true)

/-- The end-of-iteration `if (whereOperator.field)` push of `compile`: once
a `$where` key has been seen, its predicate is appended after every further
iteration. -/
def withWhere (curWhere : Option (Val → Val)) (acc : List QPred) : List QPred :=
  match curWhere with
  | some f => acc ++ [wherePredOf f]
  | none => acc

mutual
/-- `Query.compile` on a condition document (`new Query(...)` with the
default options).  Mirrors the source loop: `$where` is recorded in
`whereOperator`; `$and/$or/$nor` compile through their query-operator
implementations (each sub-condition compiled as its own `Query`); any other
key must not be operator-shaped and has its normalised expression compiled
operator by operator; and — as in the source, where the `whereOperator`
check sits inside the loop — the `$where` predicate is appended at the end
of every iteration from the one that saw it onwards. -/
def compileCond : Cond → Except String (List QPred)
  | .cond entries => compileEntries entries none []

/-- The body of `compile`'s `for` loop over the condition entries. -/
def compileEntries : List Entry → Option (Val → Val) → List QPred →
    Except String (List QPred)
  | [], _, acc => .ok acc
  | .ewhere f :: rest, _, acc =>
    compileEntries rest (some f) (withWhere (some f) acc)
  | .eand subs :: rest, curWhere, acc =>
    match compileCondList subs with
    | .error m => .error m
    | .ok ps =>
      compileEntries rest curWhere
        (withWhere curWhere
          (acc ++ [("$and", fun obj => ps.all (fun preds => testPreds preds obj))]))
  | .eor subs :: rest, curWhere, acc =>
    match compileCondList subs with
    | .error m => .error m
    | .ok ps =>
      compileEntries rest curWhere
        (withWhere curWhere
          (acc ++ [("$or", fun obj => ps.any (fun preds => testPreds preds obj))]))
  | .enor subs :: rest, curWhere, acc =>
    match compileCondList subs with
    | .error m => .error m
    | .ok ps =>
      compileEntries rest curWhere
        (withWhere curWhere
          (acc ++
            [("$nor", fun obj => !(ps.any (fun preds => testPreds preds obj)))]))
  | .efield path qv :: rest, curWhere, acc =>
    if isOperator path then .error ("unknown top level operator: " ++ path)
    else
      match compileFieldOps path (normalizeQ qv) with
      | .error m => .error m
      | .ok fs => compileEntries rest curWhere (withWhere curWhere (acc ++ fs))

/-- `rhs.map(expr => new Query(expr, options))` of the logical operators:
compile each sub-condition, propagating the first error. -/
def compileCondList : List Cond → Except String (List (List QPred))
  | [] => .ok []
  | c :: cs =>
    match compileCond c with
    | .error m => .error m
    | .ok preds =>
      match compileCondList cs with
      | .error m => .error m
      | .ok rest => .ok (preds :: rest)
end

/-- `Query.test` after compilation: the conjunction of the compiled
predicates (an error of `compile` propagates to the caller). -/
def queryTestE (c : Cond) (d : Val) : Except String Bool :=
  (compileCond c).map (fun preds => testPreds preds d)

/-- `Query.remove`: rebuild the collection keeping exactly the documents
the compiled predicate rejects, in input order (`reduce` with `push`). -/
def queryRemove (preds : List QPred) (collection : List Val) : List Val :=
  collection.foldl
    (fun acc obj => if testPreds preds obj then acc else acc ++ [obj]) []

/-- `remove$1(collection, criteria)`:
`new Query(criteria).remove(collection)`. -/
def removeD (c : Cond) (collection : List Val) : Except String (List Val) :=
  (compileCond c).map (fun preds => queryRemove preds collection)

/-- The collection facade's state: its single `collection` field. -/
structure CollectionState : Type where
  collection : List Val
  deriving Repr, DecidableEq

/-- `Collection.remove`: run the engine's `remove` and rebind the internal
`collection` reference to the returned array. -/
def collectionRemove (c : Cond) (st : CollectionState) :
    Except String (List Val × CollectionState) :=
  (removeD c st.collection).map (fun nd => (nd, { collection := nd }))

/-! ### Update engine: path tokenization, walk, applyUpdate, operators -/

/-- Index of the first occurrence of `pat` in a character list. -/
def subIndexAux (pat : List Char) : List Char → Option Nat
  | [] => if pat.isEmpty then some 0 else none
  | c :: rest =>
    if pat.isPrefixOf (c :: rest) then some 0
    else (subIndexAux pat rest).map (· + 1)

/-- `selector.indexOf(pat)`, as an `Option`. -/
def strIndexOfSub (s pat : String) : Option Nat :=
  subIndexAux pat.data s.data

/-- `selector.substring(0, n)`. -/
def strTake (s : String) (n : Nat) : String := String.mk (s.data.take n)

/-- `selector.substring(n)`. -/
def strDrop (s : String) (n : Nat) : String := String.mk (s.data.drop n)

/-- `selector.substring(a, b)` for `a ≤ b`. -/
def strSub (s : String) (a b : Nat) : String := String.mk ((s.data.take b).drop a)

/-- `FILTER_IDENT_RE = /^[a-z]+[a-zA-Z0-9]*$/`: first character a lowercase
letter, the rest alphanumeric. -/
def filterIdentOk (s : String) : Bool :=
  match s.data with
  | [] => false
  | c :: rest => c.isLower && rest.all (fun x => x.isAlphanum)

/-- The linked path chain produced by `tokenizePath`:
selector, parent, optional filter identifier, optional continuation. -/
inductive PathNode : Type where
  | node : String → String → Option String → Option PathNode → PathNode

/-- The full selector of a path node. -/
def PathNode.selector : PathNode → String
  | .node s _ _ _ => s

/-- The `parent` segment (the selector part before the array-filter
token; the whole selector when there is none). -/
def PathNode.parent : PathNode → String
  | .node _ p _ _ => p

/-- The filter identifier (`"$"` for the unnamed wildcard). -/
def PathNode.child : PathNode → Option String
  | .node _ _ c _ => c

/-- The continuation of the chain after the array-filter token. -/
def PathNode.next : PathNode → Option PathNode
  | .node _ _ _ n => n

/-- `tokenizePath(selector)` with explicit fuel (the recursion consumes a
strictly shorter selector suffix each round; `tokenizePath` seeds the fuel
above the selector length).  A selector containing `".$"` but no closing
bracket falls outside the modelled grammar. -/
def tokenizePathGo : Nat → String → Except String (PathNode × List String)
  | 0, _ => .error "model: fuel exhausted"
  | fuel + 1, selector =>
    match strIndexOfSub selector ".$" with
    | none => .ok (.node selector selector none none, [])
    | some b =>
      match strIndexOfSub selector "]" with
      | none => .error "model: malformed array-filter selector"
      | some e =>
        let parent := strTake selector b
        let child := strSub selector (b + 3) e
        if !(child == "" || filterIdentOk child) then
          .error "The filter <identifier> must begin with a lowercase letter and contain only alphanumeric characters."
        else
          let rest := strDrop selector (e + 2)
          if rest == "" then
            .ok (.node selector parent (some (if child == "" then "$" else child)) none,
              if child == "" then [] else [child])
          else
            match tokenizePathGo fuel rest with
            | .error m => .error m
            | .ok (next, elems) =>
              .ok (.node selector parent (some (if child == "" then "$" else child))
                    (some next),
                if child == "" then elems else child :: elems)

/-- `tokenizePath(selector)`. -/
def tokenizePath (selector : String) : Except String (PathNode × List String) :=
  tokenizePathGo (selector.length + 1) selector

/-- A container key: a string property (as in `walk`) or a numeric array
index (as in the leaf case of `applyUpdate`, where the source passes the
element index directly). -/
abbrev UKey : Type := String ⊕ Nat

/-- Array index assignment `arr[i] = x` (in-range replacement or the
append case `i = length`; sparse assignments beyond the end are outside the
model). -/
def setIdx (elems : List Val) (i : Nat) (x : Val) : List Val :=
  if i < elems.length then elems.set i x
  else if i = elems.length then elems ++ [x]
  else elems

/-- Field assignment on a field list (replace in place or append). -/
def setField : List (String × Val) → String → Val → List (String × Val)
  | [], key, x => [(key, x)]
  | (k, v) :: rest, key, x =>
    if k == key then (k, x) :: rest else (k, v) :: setField rest key x

/-- `container[key] = x` for both key kinds.  Named properties on arrays
and assignments on scalars are not representable and leave the value
unchanged (the reachable strict-mode failures are raised by `walkW`
instead). -/
def setKeyK (v : Val) : UKey → Val → Val
  | .inl key, x =>
    match v with
    | .vobj fields => .vobj (setField fields key x)
    | .varr elems => if isDigits key then .varr (setIdx elems (strToNat key) x) else v
    | _ => v
  | .inr i, x =>
    match v with
    | .varr elems => .varr (setIdx elems i x)
    | .vobj fields => .vobj (setField fields (toString i) x)
    | _ => v

/-- `container[key]` for both key kinds. -/
def getKeyK (v : Val) : UKey → Option Val
  | .inl key => getValue v key
  | .inr i =>
    match v with
    | .varr elems => elems.get? i
    | .vobj fields => alookup fields (toString i)
    | _ => none

/-- A mutation callback `fn(container, key)` of the update operators: it
returns the updated container and whether anything changed. -/
abbrev MutFn : Type := Val → UKey → Val × Bool

/-- The strict-mode `TypeError` raised when `buildGraph` assigns an
intermediate `{}` onto a primitive. -/
def strictAssignMsg : String := "model: cannot create property on primitive"

/-- `walk(obj, selector, fn, options)` from the source, with the callback
results OR-ed together (as `applyUpdate`'s collector `g` does): at the
terminal segment the callback fires only on an object container or an
array addressed by a numeric key; at an inner segment `buildGraph`
materialises a missing `{}` (a strict-mode error on primitives), a falsy
item stops the walk, and an array item is either walked element-wise
(`descendArray`, non-numeric next key) or descended into directly. -/
def walkW : Val → List String → MutFn → Bool → Bool → Except String (Val × Bool)
  | obj, [], _, _, _ => .ok (obj, false)
  | obj, [key], f, _, _ =>
    if isObject obj || (isArray obj && isDigits key) then .ok (f obj (.inl key))
    else .ok (obj, false)
  | obj, key :: next0 :: rest, f, buildGraph, descendArray =>
    let needBuild := buildGraph && isNilO (getValue obj key)
    if needBuild && !(isObject obj || isArray obj) then .error strictAssignMsg
    else
      let obj1 := if needBuild then setKeyK obj (.inl key) (.vobj []) else obj
      match getValue obj1 key with
      | none => .ok (obj1, false)
      | some item =>
        if !truthyJs item then .ok (obj1, false)
        else
          match item with
          | .varr elems =>
            if descendArray && !(isDigits next0) then
              match exMapM (fun e => walkW e (next0 :: rest) f buildGraph descendArray)
                  elems with
              | .error m => .error m
              | .ok results =>
                .ok (setKeyK obj1 (.inl key) (.varr (results.map Prod.fst)),
                  results.any Prod.snd)
            else
              match walkW item (next0 :: rest) f buildGraph descendArray with
              | .error m => .error m
              | .ok (item', b) => .ok (setKeyK obj1 (.inl key) item', b)
          | _ =>
            match walkW item (next0 :: rest) f buildGraph descendArray with
            | .error m => .error m
            | .ok (item', b) => .ok (setKeyK obj1 (.inl key) item', b)

/-- Plain-descent write-back of the array `resolve` aliased for the
array-filter case of `applyUpdate` (the source mutates the resolved array
through its reference; for a parent path that descends through objects this
is exactly an assignment at that path). -/
def setPathPlain : Val → List String → Val → Val
  | obj, [], _ => obj
  | obj, [k], v => setKeyK obj (.inl k) v
  | obj, k :: k2 :: rest, v =>
    match getValue obj k with
    | some item => setKeyK obj (.inl k) (setPathPlain item (k2 :: rest) v)
    | none => obj

/-- `applyUpdate(o, n, q, f, opts)`: at a node without a filter identifier
the walk applies `f` at the terminal segment; at an array-filter node the
parent path must resolve to an array, each element is gated by the
identifier's compiled query (`{[c]: e}`), matching elements are either
recursed into (`next`) or mutated directly (`f(t, i)`), and the per-element
change flags are OR-ed (`.some(Boolean)`). -/
def applyUpdateGo : Nat → Val → PathNode → List (String × (Val → Bool)) →
    MutFn → Bool → Bool → Except String (Val × Bool)
  | 0, _, _, _, _, _, _ => .error "model: fuel exhausted"
  | fuel + 1, o, n, q, f, buildGraph, descendArray =>
    match n with
    | .node _ parent none _ => walkW o (splitDot parent) f buildGraph descendArray
    | .node _ parent (some c) next =>
      match resolve o parent false with
      | some (.varr t0) =>
        let step : Except String (List Val × Bool) → Nat →
            Except String (List Val × Bool) := fun acc i =>
          match acc with
          | .error m => .error m
          | .ok (cur, flag) =>
            let e := cur.getD i .vnull
            let matched :=
              match alookup q c with
              | some qf => qf (.vobj [(c, e)])
              | none => true
            if !matched then .ok (cur, flag)
            else
              match next with
              | some n' =>
                match applyUpdateGo fuel e n' q f buildGraph descendArray with
                | .error m => .error m
                | .ok (e', b) => .ok (cur.set i e', flag || b)
              | none =>
                match f (.varr cur) (.inr i) with
                | (.varr cur', b) => .ok (cur', flag || b)
                | (_, b) => .ok (cur, flag || b)
        match (List.range t0.length).foldl step (.ok (t0, false)) with
        | .error m => .error m
        | .ok (curFinal, flag) =>
          .ok (setPathPlain o (splitDot parent) (.varr curFinal), flag)
      | _ => .ok (o, false)

/-- Depth of a tokenized path chain, used to seed `applyUpdate`'s fuel. -/
def pnodeDepth : PathNode → Nat
  | .node _ _ _ none => 1
  | .node _ _ _ (some n) => pnodeDepth n + 1

/-- `applyUpdate(o, n, q, f, opts)` (see `applyUpdateGo`; the fuel strictly
exceeds the chain depth, so the exhaustion branch is unreachable). -/
def applyUpdate (o : Val) (n : PathNode) (q : List (String × (Val → Bool)))
    (f : MutFn) (buildGraph descendArray : Bool) : Except String (Val × Bool) :=
  applyUpdateGo (pnodeDepth n + 1) o n q f buildGraph descendArray

/-- The per-identifier conditions collected by `walkExpression`: every
array-filter key equal to the identifier or nested under it is merged
(`Object.assign`) into that identifier's condition document. -/
def upsertCond (acc : List (String × List (String × QVal))) (w k : String)
    (qv : QVal) : List (String × List (String × QVal)) :=
  match acc with
  | [] => [(w, [(k, qv)])]
  | (w', entries) :: rest =>
    if w' == w then (w', setCondKey entries k qv) :: rest
    else (w', entries) :: upsertCond rest w k qv
where
  /-- `Object.assign` of a single key into a condition document. -/
  setCondKey : List (String × QVal) → String → QVal → List (String × QVal)
    | [], key, x => [(key, x)]
    | (k', v') :: rest, key, x =>
      if k' == key then (k', x) :: rest else (k', v') :: setCondKey rest key x

/-- The triple `forEach` of `walkExpression` that distributes array-filter
keys over the identifiers they mention. -/
def buildConditions (vars : List String)
    (arrayFilter : List (List (String × QVal))) :
    List (String × List (String × QVal)) :=
  arrayFilter.foldl
    (fun acc o =>
      o.foldl
        (fun acc kv =>
          vars.foldl
            (fun acc w =>
              if kv.1 == w || ((w ++ ".").data.isPrefixOf kv.1.data) then
                upsertCond acc w kv.1 kv.2
              else acc)
            acc)
        acc)
    []

/-- Compile each identifier's collected condition document into a query
(`new Query(condition, ...)` — an invalid condition aborts, as the
constructor throws). -/
def buildQueries : List (String × List (String × QVal)) →
    Except String (List (String × (Val → Bool)))
  | [] => .ok []
  | (w, entries) :: rest =>
    match compileCond (.cond (entries.map (fun kv => .efield kv.1 kv.2))) with
    | .error m => .error m
    | .ok preds =>
      match buildQueries rest with
      | .error m => .error m
      | .ok qs => .ok ((w, fun d => testPreds preds d) :: qs)

/-- `walkExpression(expr, arrayFilter, options, callback)`: for each
top-level selector of the update document, tokenize it, build the
identifier queries, invoke the callback, and record `node.parent` in the
returned modified-paths list whenever the callback reports a change. -/
def walkExpressionM (arrayFilter : List (List (String × QVal)))
    (callback : Val → Val → PathNode → List (String × (Val → Bool)) →
      Except String (Val × Bool)) :
    List (String × Val) → Val → Except String (Val × List String)
  | [], doc => .ok (doc, [])
  | (selector, val) :: rest, doc =>
    match tokenizePath selector with
    | .error m => .error m
    | .ok (node, vars) =>
      let queriesE :=
        if vars.isEmpty then .ok []
        else buildQueries (buildConditions vars arrayFilter)
      match queriesE with
      | .error m => .error m
      | .ok queries =>
        match callback doc val node queries with
        | .error m => .error m
        | .ok (doc', changed) =>
          match walkExpressionM arrayFilter callback rest doc' with
          | .error m => .error m
          | .ok (docF, res) =>
            .ok (docF, (if changed then [node.parent] else []) ++ res)

/-- `isNumber` on a possibly-`undefined` value. -/
def isNumberO : Option Val → Bool
  | some v => isNumber v
  | none => false

/-- `String(v)` coercion. -/
def jsToString : Val → String
  | .vnull => "null"
  | .vbool b => if b then "true" else "false"
  | .vint n => toString n
  | .vnan => "NaN"
  | .vstr s => s
  | .varr l => jsJoinList l
  | .vobj _ => "[object Object]"

/-- Is the character a hexadecimal digit? -/
def isHexDigit (c : Char) : Bool :=
  c.isDigit || ('a' ≤ c && c ≤ 'f') || ('A' ≤ c && c ≤ 'F')

/-- Numeric value of a (hexadecimal) digit. -/
def hexVal (c : Char) : Nat :=
  if c.isDigit then c.toNat - 48
  else if 'a' ≤ c && c ≤ 'f' then c.toNat - 87
  else c.toNat - 55

/-- Value of a digit run in the given base. -/
def digitsVal (base : Nat) (l : List Char) : Int :=
  l.foldl (fun acc c => acc * (base : Int) + (hexVal c : Int)) 0

/-- An unsigned decimal digit run. -/
def decNatJs (l : List Char) : Option Int :=
  if !l.isEmpty && l.all Char.isDigit then some (digitsVal 10 l) else none

/-- A signed decimal digit run (`StrDecimalLiteral` without fraction or
exponent). -/
def decIntJs : List Char → Option Int
  | '+' :: rest => decNatJs rest
  | '-' :: rest => (decNatJs rest).map Neg.neg
  | l => decNatJs l

/-- `StringToNumber` on the integral fragment of the model: surrounding
whitespace is trimmed (`Char.isWhitespace` standing in for the JS
whitespace set), an empty remainder is `0`, and the remainder is either a
signed decimal digit run or an unsigned `0x`/`0o`/`0b` radix literal.
Numeric forms whose value lies outside the model's integral number set
(fraction, exponent, `Infinity`) are not modelled and read as `none`, like
every non-numeric form (NaN). -/
def strToNumJs (s : String) : Option Int :=
  let t := ((s.data.dropWhile Char.isWhitespace).reverse.dropWhile
    Char.isWhitespace).reverse
  match t with
  | [] => some 0
  | '0' :: x :: rest =>
    if x = 'x' || x = 'X' then
      if !rest.isEmpty && rest.all isHexDigit then some (digitsVal 16 rest)
      else none
    else if x = 'o' || x = 'O' then
      if !rest.isEmpty && rest.all (fun c => '0' ≤ c && c ≤ '7') then
        some (digitsVal 8 rest)
      else none
    else if x = 'b' || x = 'B' then
      if !rest.isEmpty && rest.all (fun c => c = '0' || c = '1') then
        some (digitsVal 2 rest)
      else none
    else decIntJs t
  | _ => decIntJs t

/-- `Number(v)` coercion on the integral fragment of the model (`none`
plays NaN): `null`, booleans and numbers convert directly; strings parse
per `StringToNumber`; arrays convert through their joined string form
(`ToPrimitive` via `Array.prototype.toString`: `[]` is `0`, `[5]` is `5`,
`[1,2]` is NaN); plain objects convert through `"[object Object]"`, i.e.
NaN. -/
def toNumberJs : Val → Option Int
  | .vnull => some 0
  | .vbool b => some (if b then 1 else 0)
  | .vint n => some n
  | .vnan => none
  | .vstr s => strToNumJs s
  | .varr l => strToNumJs (jsJoinList l)
  | .vobj _ => none

/-- JavaScript `+`: string concatenation when either operand converts to a
string primitive, numeric addition (NaN absorbing) otherwise. -/
def jsAdd (a b : Val) : Val :=
  match a, b with
  | .vstr _, _ | _, .vstr _ | .varr _, _ | _, .varr _ | .vobj _, _ | _, .vobj _ =>
    .vstr (jsToString a ++ jsToString b)
  | _, _ =>
    match toNumberJs a, toNumberJs b with
    | some x, some y => .vint (x + y)
    | _, _ => .vnan

/-- JavaScript `*`: numeric coercion with NaN absorption. -/
def jsMul (a b : Val) : Val :=
  match toNumberJs a, toNumberJs b with
  | some x, some y => .vint (x * y)
  | _, _ => .vnan

/-- JavaScript strict equality `===` between a freshly computed value and
a stored one; container comparisons are reference comparisons in the
source and the compared value is always a fresh number at the call sites
modelled here, so distinct containers compare unequal. -/
def jsStrictEq : Val → Val → Bool
  | .vint x, .vint y => x == y
  | .vnan, _ => false
  | _, .vnan => false
  | .vnull, .vnull => true
  | .vbool x, .vbool y => x == y
  | .vstr x, .vstr y => x == y
  | _, _ => false

/-- `===` lifted to possibly-`undefined` operands. -/
def jsStrictEqO : Option Val → Option Val → Bool
  | some a, some b => jsStrictEq a b
  | none, none => true
  | _, _ => false

/-- The `$set` update operator: replace the value at each path unless it is
already `isEqual` to the new value (the default `cloneMode` of a direct
call stores the value as is). -/
def opSet (doc : Val) (expr : List (String × Val))
    (arrayFilters : List (List (String × QVal))) :
    Except String (Val × List String) :=
  walkExpressionM arrayFilters
    (fun d val node queries =>
      applyUpdate d node queries
        (fun o k =>
          if isEqualOV (getKeyK o k) (some val) then (o, false)
          else (setKeyK o k val, true))
        true false)
    expr doc

/-- The `$inc` update operator: on a plain path the resolved current value
must be undefined or numeric (fatal otherwise); the mutation seeds a falsy
current value with `0` and adds the increment. -/
def opInc (doc : Val) (expr : List (String × Val))
    (arrayFilters : List (List (String × QVal))) :
    Except String (Val × List String) :=
  walkExpressionM arrayFilters
    (fun d val node queries =>
      let proceed : Except String (Val × Bool) :=
        applyUpdate d node queries
          (fun o k =>
            let cur := getKeyK o k
            let base :=
              match cur with
              | some v => if truthyJs v then v else .vint 0
              | none => .vint 0
            (setKeyK o k (jsAdd base val), true))
          true false
      match node.child with
      | none =>
        let n := resolve d node.parent false
        match n with
        | none => proceed
        | some v =>
          if isNumber v then proceed
          else .error "cannot apply $inc to a value of non-numeric type"
      | some _ => proceed)
    expr doc

/-- The bitwise kernel of `$bit` (the source's `&`, `|`, `^` on the
coerced operands; two's-complement semantics via `Int.land`/`lor`/`xor`,
with the 32-bit wrap of out-of-range inputs outside the model). -/
def bitApply (op : String) (a b : Val) : Val :=
  let x := (toNumberJs a).getD 0
  let y := (toNumberJs b).getD 0
  if op = "and" then .vint (Int.land x y)
  else if op = "or" then .vint (Int.lor x y)
  else .vint (Int.xor x y)

/-- The `$bit` update operator: the argument must be a single-key
`{and|or|xor: v}` document; a defined non-numeric current value (or
non-numeric operand) silently reports no change; otherwise the coerced
current value is combined with the operand and the change flag compares
the result with the coerced previous value. -/
def opBit (doc : Val) (expr : List (String × Val))
    (arrayFilters : List (List (String × QVal))) :
    Except String (Val × List String) :=
  walkExpressionM arrayFilters
    (fun d val node queries =>
      match val with
      | .vobj [(op, v)] =>
        if op = "and" || op = "or" || op = "xor" then
          applyUpdate d node queries
            (fun o k =>
              let n := getKeyK o k
              if !(n = none) && !(isNumberO n && isNumber v) then (o, false)
              else
                let n0 : Val :=
                  match n with
                  | some x => if truthyJs x then x else .vint 0
                  | none => .vint 0
                let res := bitApply op n0 v
                (setKeyK o k res, !(jsStrictEq res n0)))
            true false
        else .error ("Invalid bit operator '" ++ op ++ "'. Must be one of 'and', 'or', or 'xor'.")
      | _ => .error "Invalid bit operator. Must be one of 'and', 'or', or 'xor'.")
    expr doc

/-- The `$mul` update operator: an undefined field is set to `0`, any other
value is multiplied with JavaScript coercion (no numeric check), and the
change flag is the strict inequality of the new and previous values. -/
def opMul (doc : Val) (expr : List (String × Val))
    (arrayFilters : List (List (String × QVal))) :
    Except String (Val × List String) :=
  walkExpressionM arrayFilters
    (fun d val node queries =>
      applyUpdate d node queries
        (fun o k =>
          let prev := getKeyK o k
          let res :=
            match prev with
            | none => .vint 0
            | some p => jsMul p val
          (setKeyK o k res, !(jsStrictEqO (some res) prev)))
        true false)
    expr doc

/-- The current value at a plain dotted path (simple object/array
descent), used to phrase "the field's current value". -/
def getPath : Val → List String → Option Val
  | doc, [] => some doc
  | doc, k :: rest =>
    match getValue doc k with
    | some item => getPath item rest
    | none => none

/-- The traversal of a plain path runs through existing objects: every
proper prefix resolves to a mapping (so `walk` reaches an object container
at the terminal segment without materialising intermediates). -/
def pathObjChain : Val → List String → Bool
  | _, [] => false
  | doc, [_] => isObject doc
  | doc, k :: k2 :: rest =>
    isObject doc &&
    (match getValue doc k with
     | some item => pathObjChain item (k2 :: rest)
     | none => false)

theorem alookup_setField (fields : List (String × Val)) (k : String) (x : Val) :
    alookup (setField fields k x) k = some x := by
  induction fields with
  | nil => simp [setField, alookup]
  | cons p rest ih =>
    obtain ⟨k', v'⟩ := p
    by_cases h : k' = k
    · simp [setField, alookup, h]
    · simp only [setField, alookup]
      rw [if_neg (by simpa using h)]
      simp [alookup, h, ih]

theorem setField_self {fields : List (String × Val)} {k : String} {v : Val}
    (h : alookup fields k = some v) : setField fields k v = fields := by
  induction fields with
  | nil => simp [alookup] at h
  | cons p rest ih =>
    obtain ⟨k', v'⟩ := p
    by_cases hk : k' = k
    · subst hk
      simp [alookup] at h
      simp [setField, h]
    · simp [alookup, hk] at h
      simp [setField, hk, ih h]

theorem walkW_cons_objitem {fields f2 : List (String × Val)} {k key2 : String}
    {rest : List String} {f : MutFn} {bg da : Bool}
    (hlk : alookup fields k = some (.vobj f2)) :
    walkW (.vobj fields) (k :: key2 :: rest) f bg da
      = match walkW (.vobj f2) (key2 :: rest) f bg da with
        | .error m => .error m
        | .ok (item', b) => .ok (setKeyK (.vobj fields) (.inl k) item', b) := by
  have h1 : getValue (.vobj fields) k = some (.vobj f2) := hlk
  simp [walkW, h1, isNilO, truthyJs, isObject, isArray]

/-- The `walk`-level content of C3 for the `$set` mutation: under an
object chain, an `isEqual` current value leaves the document untouched
with a false flag, and a differing value assigns at the path with a true
flag. -/
theorem walkW_set_chain : ∀ (segs : List String) (doc : Val) (val : Val),
    pathObjChain doc segs = true →
    (isEqualOV (getPath doc segs) (some val) = true →
      walkW doc segs
        (fun o k => if isEqualOV (getKeyK o k) (some val) then (o, false)
          else (setKeyK o k val, true)) true false = .ok (doc, false))
    ∧ (isEqualOV (getPath doc segs) (some val) = false →
      walkW doc segs
        (fun o k => if isEqualOV (getKeyK o k) (some val) then (o, false)
          else (setKeyK o k val, true)) true false
        = .ok (setPathPlain doc segs val, true)
      ∧ getPath (setPathPlain doc segs val) segs = some val) := by
  intro segs
  induction segs with
  | nil => intro doc val h; simp [pathObjChain] at h
  | cons k rest ih =>
    intro doc val h
    cases rest with
    | nil =>
      simp only [pathObjChain] at h
      cases doc with
      | vobj fields =>
        have hk : getKeyK (.vobj fields) (.inl k) = alookup fields k := rfl
        have hgp : getPath (.vobj fields) [k] = alookup fields k := by
          cases hlk : alookup fields k <;> simp [getPath, getValue, hlk]
        constructor
        · intro heq
          rw [hgp] at heq
          simp only [walkW, isObject, isArray, Bool.true_or, if_pos]
          rw [hk]
          cases hlk : alookup fields k with
          | none => rw [hlk] at heq; simp [isEqualOV] at heq
          | some cur => rw [hlk] at heq; simp [heq]
        · intro hne
          rw [hgp] at hne
          constructor
          · simp only [walkW, isObject, isArray, Bool.true_or, if_pos]
            rw [hk, hne]
            simp [setPathPlain, setKeyK]
          · simp [setPathPlain, setKeyK, getPath, getValue, alookup_setField]
      | vnull => simp [isObject] at h
      | vbool b => simp [isObject] at h
      | vint n => simp [isObject] at h
      | vnan => simp [isObject] at h
      | vstr s => simp [isObject] at h
      | varr l => simp [isObject] at h
    | cons k2 rest2 =>
      simp only [pathObjChain, Bool.and_eq_true] at h
      obtain ⟨hobj, hrest⟩ := h
      cases doc with
      | vobj fields =>
        cases hlk : getValue (.vobj fields) k with
        | none => rw [hlk] at hrest; simp at hrest
        | some item =>
          rw [hlk] at hrest
          simp only [] at hrest
          have hitemobj : isObject item = true := by
            cases rest2 with
            | nil => simpa [pathObjChain] using hrest
            | cons a b =>
              simp only [pathObjChain, Bool.and_eq_true] at hrest
              exact hrest.1
          cases item with
          | vobj f2 =>
            have hlk' : alookup fields k = some (.vobj f2) := hlk
            have hunf := @walkW_cons_objitem fields f2 k k2 rest2
              (fun o k => if isEqualOV (getKeyK o k) (some val) then (o, false)
                else (setKeyK o k val, true))
              true false hlk'
            have hgp : getPath (.vobj fields) (k :: k2 :: rest2)
                = getPath (.vobj f2) (k2 :: rest2) := by
              simp [getPath, hlk]
            have ihres := ih (.vobj f2) val hrest
            have hsp : setPathPlain (.vobj fields) (k :: k2 :: rest2) val
                = setKeyK (.vobj fields) (.inl k)
                    (setPathPlain (.vobj f2) (k2 :: rest2) val) := by
              simp [setPathPlain, hlk]
            constructor
            · intro heq
              rw [hgp] at heq
              rw [hunf, ihres.1 heq]
              have hself : setKeyK (.vobj fields) (.inl k) (.vobj f2)
                  = .vobj fields := by
                simp only [setKeyK]
                rw [setField_self hlk']
              simp [hself]
            · intro hne
              rw [hgp] at hne
              have hrec := ihres.2 hne
              refine ⟨?_, ?_⟩
              · rw [hunf, hrec.1, hsp]
              · rw [hsp]
                have hget : getValue
                    (setKeyK (.vobj fields) (.inl k)
                      (setPathPlain (.vobj f2) (k2 :: rest2) val)) k
                    = some (setPathPlain (.vobj f2) (k2 :: rest2) val) := by
                  simp [setKeyK, getValue, alookup_setField]
                simp only [getPath]
                rw [hget]
                exact hrec.2
          | vnull => simp [isObject] at hitemobj
          | vbool b => simp [isObject] at hitemobj
          | vint n => simp [isObject] at hitemobj
          | vnan => simp [isObject] at hitemobj
          | vstr s => simp [isObject] at hitemobj
          | varr l => simp [isObject] at hitemobj
      | vnull => simp [isObject] at hobj
      | vbool b => simp [isObject] at hobj
      | vint n => simp [isObject] at hobj
      | vnan => simp [isObject] at hobj
      | vstr s => simp [isObject] at hobj
      | varr l => simp [isObject] at hobj

theorem tokenizePath_simple {k : String} (h : strIndexOfSub k ".$" = none) :
    tokenizePath k = .ok (.node k k none none, []) := by
  simp [tokenizePath, tokenizePathGo, h]

/-- C3 (counterexample): on the document `{a: 5}` and the field path
`"a.b"`, `$set` with the differing value `1` returns an empty
modified-paths list and leaves the document unchanged (the walk stops at
the non-object value `5`), contradicting the claim's "differing value
returns a list containing exactly that path and sets the field". -/
theorem set_claim_counterexample :
    opSet (.vobj [("a", .vint 5)]) [("a.b", .vint 1)] []
      = .ok (.vobj [("a", .vint 5)], ([] : List String))
    ∧ isEqualOV (getPath (.vobj [("a", .vint 5)]) (splitDot "a.b"))
        (some (.vint 1)) = false
    ∧ ([] : List String) ≠ ["a.b"] :=
  ⟨rfl, rfl, by decide⟩

/-- C3 (amended): for every document and plain field path whose traversal
runs through existing mappings, `$set` with a value `isEqual` to the
field's current value returns an empty modified-paths list and leaves the
document unchanged, while `$set` with a differing value returns exactly
that path and stores the new value at the field.  (The original claim's
range over every field path is too broad: on `{a: 5}` with path `"a.b"`
the walk stops at the primitive and `$set` returns successfully with no
modified paths and the document unchanged, as the counterexample shows.) -/
theorem set_reports_path_on_chain (doc : Val) (selector : String) (val : Val)
    (hsel : strIndexOfSub selector ".$" = none)
    (hchain : pathObjChain doc (splitDot selector) = true) :
    (isEqualOV (getPath doc (splitDot selector)) (some val) = true →
      opSet doc [(selector, val)] [] = .ok (doc, []))
    ∧ (isEqualOV (getPath doc (splitDot selector)) (some val) = false →
      opSet doc [(selector, val)] []
        = .ok (setPathPlain doc (splitDot selector) val, [selector])
      ∧ getPath (setPathPlain doc (splitDot selector) val) (splitDot selector)
          = some val) := by
  have htok := tokenizePath_simple hsel
  have hwalk := walkW_set_chain (splitDot selector) doc val hchain
  constructor
  · intro heq
    have hw := hwalk.1 heq
    simp [opSet, walkExpressionM, htok, applyUpdate, applyUpdateGo, pnodeDepth,
      PathNode.child, PathNode.parent, hw]
  · intro hne
    have hw := (hwalk.2 hne).1
    refine ⟨?_, (hwalk.2 hne).2⟩
    simp [opSet, walkExpressionM, htok, applyUpdate, applyUpdateGo, pnodeDepth,
      PathNode.child, PathNode.parent, hw]

/-- C3 (witness): setting `"a.b"` to a differing value on `{a: {b: 3}}`
stores the value and reports exactly `["a.b"]`. -/
theorem set_reports_path_on_chain_witness :
    (isEqualOV (getPath (.vobj [("a", .vobj [("b", .vint 3)])]) (splitDot "a.b"))
        (some (.vint 1)) = true →
      opSet (.vobj [("a", .vobj [("b", .vint 3)])]) [("a.b", .vint 1)] []
        = .ok (.vobj [("a", .vobj [("b", .vint 3)])], []))
    ∧ (isEqualOV (getPath (.vobj [("a", .vobj [("b", .vint 3)])]) (splitDot "a.b"))
        (some (.vint 1)) = false →
      opSet (.vobj [("a", .vobj [("b", .vint 3)])]) [("a.b", .vint 1)] []
        = .ok (setPathPlain (.vobj [("a", .vobj [("b", .vint 3)])])
            (splitDot "a.b") (.vint 1), ["a.b"])
      ∧ getPath (setPathPlain (.vobj [("a", .vobj [("b", .vint 3)])])
          (splitDot "a.b") (.vint 1)) (splitDot "a.b") = some (.vint 1)) :=
  set_reports_path_on_chain (.vobj [("a", .vobj [("b", .vint 3)])]) "a.b"
    (.vint 1) (by rfl) (by rfl)

theorem resolveGo_single (fuel : Nat) (fields : List (String × Val)) (k : String)
    (b : Bool) :
    resolveGo (fuel + 2) (some (.vobj fields)) [k] 0 b = (alookup fields k, 0) := by
  cases h : alookup fields k with
  | none => simp [resolveGo, getValue, h]
  | some v => simp [resolveGo, getValue, h]

theorem resolveGo_two (fuel : Nat) (f1 f2 : List (String × Val)) (k1 k2 : String)
    (h : alookup f1 k1 = some (.vobj f2)) :
    resolveGo (fuel + 3) (some (.vobj f1)) [k1, k2] 0 true = (alookup f2 k2, 0) := by
  have h1 : getValue (.vobj f1) k1 = some (.vobj f2) := h
  have h2 : fuel + 3 = (fuel + 1) + 2 := rfl
  simp only [resolveGo, h1]
  exact resolveGo_single fuel f2 k2 false

theorem resolve_single_obj (fields : List (String × Val)) (k : String)
    (hk : splitDot k = [k]) :
    resolve (.vobj fields) k false = alookup fields k := by
  simp only [resolve, isSimpleType, Bool.false_eq_true, if_false, hk,
    List.length_cons, List.length_nil]
  have h2 : vheight (.vobj fields) + 1 + 1 = vheight (.vobj fields) + 2 := rfl
  rw [h2, resolveGo_single]
  cases halk : alookup fields k with
  | none => simp
  | some v => cases v <;> simp

theorem jsStrictEq_jsMul_ne {v : Val} (hnn : isNumber v = false) :
    jsStrictEq (jsMul v (.vint 2)) v = false := by
  cases v with
  | vint n => simp [isNumber] at hnn
  | vnull => rfl
  | vbool b => cases b <;> rfl
  | vnan => rfl
  | vobj fs => rfl
  | vstr s =>
    simp only [jsMul, toNumberJs]
    cases strToNumJs s with
    | none => rfl
    | some x => rfl
  | varr l =>
    simp only [jsMul, toNumberJs]
    cases strToNumJs (jsJoinList l) with
    | none => rfl
    | some x => rfl

/-! ### The `$inc`-through-array-filter scenario `items.$[x].qty` -/

/-- The continuation node `tokenizePath` produces for the `"qty"` tail of
the selector `"items.$[x].qty"`. -/
def c4Next : PathNode := .node "qty" "qty" none none

/-- The full path chain `tokenizePath` produces for `"items.$[x].qty"`. -/
def c4Node : PathNode := .node "items.$[x].qty" "items" (some "x") (some c4Next)

/-- The array-filter condition list `[{"x.qty": {$gt: 5}}]`. -/
def c4Filters : List (List (String × QVal)) :=
  [[("x.qty", QVal.ops [("$gt", .vint 5)])]]

/-- The compiled query of the identifier `x`, exactly as `buildQueries`
produces it from `c4Filters`. -/
def c4Query : Val → Bool :=
  fun d => testPreds [("$gt", createQueryPred "x.qty" (fun a _ => qGt a (.vint 5)))] d

/-- The `$inc` mutation callback at increment `1` (the closure `$inc` hands
to `applyUpdate`). -/
def c4IncFn : MutFn := fun o k =>
  let cur := getKeyK o k
  let base :=
    match cur with
    | some v => if truthyJs v then v else .vint 0
    | none => .vint 0
  (setKeyK o k (jsAdd base (.vint 1)), true)

/-- The recursion of `applyUpdate` into a single array element (the `"qty"`
tail walk), as a total function on the element. -/
def c4ElemStep (f : MutFn) (e : Val) : Val × Bool :=
  match applyUpdateGo 2 e c4Next [("x", c4Query)] f true false with
  | .ok r => r
  | .error _ => (e, false)

/-- Does an array element satisfy the filter condition registered for the
identifier `x` (the element is tested wrapped as `{x: e}`)? -/
def c4Match (e : Val) : Bool := c4Query (.vobj [("x", e)])

theorem c4_tokenize : tokenizePath "items.$[x].qty" = .ok (c4Node, ["x"]) := rfl

theorem c4_queries :
    buildQueries (buildConditions ["x"] c4Filters) = .ok [("x", c4Query)] := rfl

theorem c4_child : c4Node.child = some "x" := rfl

theorem c4_parent : c4Node.parent = "items" := rfl

theorem c4_inner (q : List (String × (Val → Bool))) (f : MutFn) (e : Val) :
    applyUpdateGo 2 e c4Next q f true false
      = .ok (if isObject e then f e (.inl "qty") else (e, false)) := by
  cases e <;> rfl

theorem resolve_two_obj (f1 f2 : List (String × Val)) (k1 k2 sel : String)
    (hsel : splitDot sel = [k1, k2])
    (h : alookup f1 k1 = some (.vobj f2)) (v : Val)
    (hv : alookup f2 k2 = some v) (hsv : isSimpleType v = true) (u : Bool) :
    resolve (.vobj f1) sel u = some v := by
  simp only [resolve, isSimpleType, Bool.false_eq_true, if_false, hsel,
    List.length_cons, List.length_nil]
  rw [show vheight (.vobj f1) + 2 + 1 = vheight (.vobj f1) + 3 from rfl,
    resolveGo_two (vheight (.vobj f1)) f1 f2 k1 k2 h, hv]
  cases v with
  | varr l => simp [isSimpleType] at hsv
  | vobj fs => rfl
  | vnull => rfl
  | vbool b => rfl
  | vint m => rfl
  | vnan => rfl
  | vstr s => rfl

theorem qGt_int (n m : Int) : qGt (some (.vint n)) (.vint m) = decide (m < n) := by
  have h : qGt (some (.vint n)) (.vint m)
      = decide ((if n < m then (-1 : Int) else if m < n then 1 else 0) > 0) := rfl
  rw [h]
  rcases lt_trichotomy n m with hlt | heq | hgt
  · rw [if_pos hlt]
    simp [not_lt.mpr (le_of_lt hlt)]
  · subst heq
    simp
  · rw [if_neg (not_lt.mpr (le_of_lt hgt)), if_pos hgt]
    simp [hgt]

theorem getD_append_cons (pre suf : List Val) (e : Val) :
    (pre ++ e :: suf).getD pre.length .vnull = e := by
  rw [List.getD_eq_getElem?_getD, List.getElem?_append_right (le_refl _)]
  simp

theorem set_append_cons (pre suf : List Val) (e x : Val) :
    (pre ++ e :: suf).set pre.length x = pre ++ x :: suf := by
  rw [List.set_append_right _ _ (le_refl _)]
  simp

/-- The per-element loop of `applyUpdate` at an array-filter node: when
every recursive call succeeds, the `t.map(...)` pass rewrites exactly the
matching elements and ORs their change flags. -/
theorem applyUpdateGo_filter_fold (fuel : Nat) (n' : PathNode)
    (q : List (String × (Val → Bool))) (c : String) (f : MutFn) (bg da : Bool)
    (ha : ∀ e : Val, ∃ r, applyUpdateGo fuel e n' q f bg da = .ok r) :
    ∀ (suf pre : List Val) (flag : Bool),
    (List.range' pre.length suf.length).foldl
      (fun (acc : Except String (List Val × Bool)) i =>
        match acc with
        | .error m => .error m
        | .ok (cur, flag) =>
          if !(match alookup q c with
               | some qf => qf (.vobj [(c, cur.getD i .vnull)])
               | none => true) then Except.ok (cur, flag)
          else
            match applyUpdateGo fuel (cur.getD i .vnull) n' q f bg da with
            | .error m => .error m
            | .ok (e', b) => .ok (cur.set i e', flag || b))
      (Except.ok (pre ++ suf, flag))
    = .ok (pre ++ suf.map (fun e =>
          if (match alookup q c with
              | some qf => qf (.vobj [(c, e)])
              | none => true) then
            (match applyUpdateGo fuel e n' q f bg da with
             | .ok r => r
             | .error _ => (e, false)).1
          else e),
        flag || suf.any (fun e =>
          (match alookup q c with
           | some qf => qf (.vobj [(c, e)])
           | none => true) &&
          (match applyUpdateGo fuel e n' q f bg da with
           | .ok r => r
           | .error _ => (e, false)).2)) := by
  intro suf
  induction suf with
  | nil => intro pre flag; simp
  | cons e suf ih =>
    intro pre flag
    have hrange : List.range' pre.length (e :: suf).length
        = pre.length :: List.range' (pre.length + 1) suf.length := rfl
    rw [hrange, List.foldl_cons]
    have hget : (pre ++ e :: suf).getD pre.length .vnull = e :=
      getD_append_cons pre suf e
    by_cases hm : (match alookup q c with
        | some qf => qf (.vobj [(c, e)])
        | none => true)
    · obtain ⟨⟨e', b⟩, hr⟩ := ha e
      have hstep : (match (.ok (pre ++ e :: suf, flag) :
            Except String (List Val × Bool)) with
          | .error m => (.error m : Except String (List Val × Bool))
          | .ok (cur, flag) =>
            if !(match alookup q c with
                 | some qf => qf (.vobj [(c, cur.getD pre.length .vnull)])
                 | none => true) then (.ok (cur, flag) : Except String (List Val × Bool))
            else
              match applyUpdateGo fuel (cur.getD pre.length .vnull) n' q f bg da with
              | .error m => .error m
              | .ok (e', b) => .ok (cur.set pre.length e', flag || b))
          = .ok (pre ++ e' :: suf, flag || b) := by
        simp only [hget, hm, Bool.not_true, Bool.false_eq_true, if_false, hr]
        rw [set_append_cons]
      rw [hstep]
      have hlen : pre.length + 1 = (pre ++ [e']).length := by simp
      have happ : pre ++ e' :: suf = (pre ++ [e']) ++ suf := by simp
      rw [hlen, happ, ih (pre ++ [e']) (flag || b)]
      have hval : (match applyUpdateGo fuel e n' q f bg da with
          | .ok r => r
          | .error _ => (e, false)) = (e', b) := by rw [hr]
      simp only [List.map_cons, List.any_cons, hm, hval, Bool.true_and,
        List.append_assoc, List.singleton_append, if_pos, ite_true,
        Bool.or_assoc]
    · have hstep : (match (.ok (pre ++ e :: suf, flag) :
            Except String (List Val × Bool)) with
          | .error m => (.error m : Except String (List Val × Bool))
          | .ok (cur, flag) =>
            if !(match alookup q c with
                 | some qf => qf (.vobj [(c, cur.getD pre.length .vnull)])
                 | none => true) then (.ok (cur, flag) : Except String (List Val × Bool))
            else
              match applyUpdateGo fuel (cur.getD pre.length .vnull) n' q f bg da with
              | .error m => .error m
              | .ok (e', b) => .ok (cur.set pre.length e', flag || b))
          = .ok (pre ++ e :: suf, flag) := by
        simp only [hget]
        rw [if_pos (by simp [hm])]
      rw [hstep]
      have hlen : pre.length + 1 = (pre ++ [e]).length := by simp
      have happ : pre ++ e :: suf = (pre ++ [e]) ++ suf := by simp
      rw [hlen, happ, ih (pre ++ [e]) flag]
      simp only [List.map_cons, List.any_cons, hm, Bool.false_and,
        Bool.false_or, List.append_assoc, List.singleton_append,
        Bool.false_eq_true, if_false, ite_false]

/-- Head unfolding of `applyUpdate` at an array-filter node whose parent
path resolves to an array. -/
theorem applyUpdateGo_filter_eq (fuel : Nat) (o : Val) (s p c : String)
    (n' : PathNode) (q : List (String × (Val → Bool))) (f : MutFn) (bg da : Bool)
    (elems : List Val) (hres : resolve o p false = some (.varr elems)) :
    applyUpdateGo (fuel + 1) o (.node s p (some c) (some n')) q f bg da
      = match (List.range elems.length).foldl
          (fun (acc : Except String (List Val × Bool)) i =>
            match acc with
            | .error m => .error m
            | .ok (cur, flag) =>
              if !(match alookup q c with
                   | some qf => qf (.vobj [(c, cur.getD i .vnull)])
                   | none => true) then Except.ok (cur, flag)
              else
                match applyUpdateGo fuel (cur.getD i .vnull) n' q f bg da with
                | .error m => .error m
                | .ok (e', b) => .ok (cur.set i e', flag || b))
          (Except.ok (elems, false)) with
        | .error m => .error m
        | .ok (cur, flag) => .ok (setPathPlain o (splitDot p) (.varr cur), flag) := by
  simp only [applyUpdateGo, hres]

/-- `applyUpdate` on a document whose `items` field holds an array, at the
chain of `"items.$[x].qty"` with the compiled filter query of `x`: each
element is rewritten through the tail walk exactly when it matches, and the
change flags are OR-ed. -/
theorem c4_applyUpdate (f : MutFn) (fields : List (String × Val))
    (elems : List Val)
    (hitems : alookup fields "items" = some (.varr elems)) :
    applyUpdate (.vobj fields) c4Node [("x", c4Query)] f true false
      = .ok (.vobj (setField fields "items"
            (.varr (elems.map (fun e => if c4Match e then (c4ElemStep f e).1 else e)))),
          elems.any (fun e => c4Match e && (c4ElemStep f e).2)) := by
  have hres : resolve (.vobj fields) "items" false = some (.varr elems) := by
    rw [resolve_single_obj fields "items" rfl, hitems]
  have ha : ∀ e : Val,
      ∃ r, applyUpdateGo 2 e c4Next [("x", c4Query)] f true false = .ok r :=
    fun e => ⟨_, c4_inner [("x", c4Query)] f e⟩
  have hfold := applyUpdateGo_filter_fold 2 c4Next [("x", c4Query)] "x" f true false
    ha elems [] false
  simp only [List.nil_append, List.length_nil, Bool.false_or] at hfold
  rw [show applyUpdate (.vobj fields) c4Node [("x", c4Query)] f true false
      = applyUpdateGo (2 + 1) (.vobj fields)
          (.node "items.$[x].qty" "items" (some "x") (some c4Next))
          [("x", c4Query)] f true false from rfl]
  rw [applyUpdateGo_filter_eq 2 (.vobj fields) "items.$[x].qty" "items" "x" c4Next
    [("x", c4Query)] f true false elems hres]
  rw [List.range_eq_range', hfold]
  rfl

/-- `$inc` with the expression `{"items.$[x].qty": 1}` and the array filter
`[{"x.qty": {$gt: 5}}]` on a document whose `items` field holds an array:
the full pipeline result, with the modified-paths list reporting the parent
path `"items"`. -/
theorem c4_opInc (fields : List (String × Val)) (elems : List Val)
    (hitems : alookup fields "items" = some (.varr elems)) :
    opInc (.vobj fields) [("items.$[x].qty", .vint 1)] c4Filters
      = .ok (.vobj (setField fields "items"
            (.varr (elems.map
              (fun e => if c4Match e then (c4ElemStep c4IncFn e).1 else e)))),
          if elems.any (fun e => c4Match e && (c4ElemStep c4IncFn e).2) then
            ["items"] else []) := by
  simp only [opInc, walkExpressionM, c4_tokenize, c4_queries, c4_child, c4_parent,
    List.isEmpty_cons, Bool.false_eq_true, if_false, List.append_nil]
  rw [c4_applyUpdate _ fields elems hitems]
  rfl

/-- The filter query of `x` on a one-field element `{qty: n}` holds exactly
for `5 < n`. -/
theorem c4Match_int (n : Int) :
    c4Match (.vobj [("qty", .vint n)]) = decide (5 < n) := by
  have hres : resolve (.vobj [("x", .vobj [("qty", .vint n)])]) "x.qty" true
      = some (.vint n) :=
    resolve_two_obj [("x", .vobj [("qty", .vint n)])] [("qty", .vint n)]
      "x" "qty" "x.qty" rfl rfl (.vint n) rfl rfl true
  have h : c4Match (.vobj [("qty", .vint n)])
      = (qGt (resolve (.vobj [("x", .vobj [("qty", .vint n)])]) "x.qty" true)
          (.vint 5) && true) := rfl
  rw [h, hres, qGt_int, Bool.and_true]

/-- The tail walk of `"items.$[x].qty"` on a one-field element `{qty: n}`
increments `qty` and reports a change. -/
theorem c4ElemStep_int (n : Int) :
    c4ElemStep c4IncFn (.vobj [("qty", .vint n)])
      = (.vobj [("qty", .vint (n + 1))], true) := by
  have h : c4ElemStep c4IncFn (.vobj [("qty", .vint n)])
      = (.vobj [("qty", jsAdd (if truthyJs (.vint n) then .vint n else .vint 0)
          (.vint 1))], true) := rfl
  rw [h]
  by_cases h0 : n = 0
  · subst h0; rfl
  · have ht : truthyJs (.vint n) = true := by simp [truthyJs, h0]
    rw [ht]
    simp [jsAdd, toNumberJs]

/-! ### `computeValue` and the one-operator-per-mapping rule

`computeValue(obj, expr, operator, options)` is modelled over a deep
expression type (`CExpr`); the expression-class and accumulator-class
registry lookups (`getOperator(OperatorType.EXPRESSION/ACCUMULATOR, ...)`)
and the `$`-string variable/path branch are parameters of the model, so the
theorems hold for every registry and every path resolver.  The serialized
expression appended to the `Invalid aggregation expression` message is
omitted from the modelled message text. -/

/-- A deep expression: a literal value, an array of sub-expressions, or a
mapping of keys to sub-expressions. -/
inductive CExpr : Type where
  | lit : Val → CExpr
  | arrE : List CExpr → CExpr
  | objE : List (String × CExpr) → CExpr

/-- An operator implementation `fn(obj, expr, options)` of the expression
or accumulator class; the accumulator call site passes `expr = null`
(`none`) after pre-computing a non-array input. -/
abbrev CVOp : Type := Val → Option CExpr → Except String Val

/-- `expr[0] === "$"` on a string. -/
def startsWithDollar (s : String) : Bool :=
  match s.data with
  | '$' :: _ => true
  | _ => false

/-- The message of the one-operator-per-expression assert. -/
def invalidAggMsg : String := "Invalid aggregation expression"

/-- The `for (const [key, val] of Object.entries(expr))` loop of
`computeValue`'s mapping branch: each key's value is computed with the key
as the operator; when the key is registered in the expression or
accumulator class the mapping's total key count must be `1` (fatal
otherwise) and the just-computed value is returned directly, not wrapped
under the key. -/
def cvObjLoop (eval1 : Val → CExpr → String → Except String Val)
    (isOp : String → Bool) (obj : Val) (allLen : Nat) :
    List (String × CExpr) → List (String × Val) → Except String Val
  | [], acc => .ok (.vobj acc)
  | (key, e) :: rest, acc =>
    match eval1 obj e key with
    | .error m => .error m
    | .ok r =>
      if isOp key then
        if allLen == 1 then .ok r else .error invalidAggMsg
      else cvObjLoop eval1 isOp obj allLen rest (acc ++ [(key, r)])

/-- `computeValue` with explicit fuel (each recursive call descends into a
sub-expression; callers seed the fuel above the expression depth): a
registered expression operator is applied directly; a registered
accumulator first pre-computes a non-array input (fatal if the result is
still not an array); an unregistered operator-shaped name is fatal; a
`$`-prefixed string literal goes to the variable/path branch (a parameter
here); arrays map element-wise with a `null` operator; mappings run the
per-key loop; anything else is already resolved. -/
def computeValueGo (exprOp accOp : String → Option CVOp)
    (pathFn : Val → String → Except String Val) :
    Nat → Val → CExpr → String → Except String Val
  | 0, _, _, _ => .error fuelMsg
  | fuel + 1, obj, expr, operator =>
    if isOperator operator then
      match exprOp operator with
      | some f => f obj (some expr)
      | none =>
        match accOp operator with
        | some f =>
          match obj with
          | .varr _ => f obj (some expr)
          | _ =>
            match computeValueGo exprOp accOp pathFn fuel obj expr "" with
            | .error m => .error m
            | .ok obj' =>
              match obj' with
              | .varr _ => f obj' none
              | _ => .error ("'" ++ operator ++ "' target must be an array.")
        | none => .error ("operator '" ++ operator ++ "' is not registered")
    else
      match expr with
      | .lit v =>
        match v with
        | .vstr s => if startsWithDollar s then pathFn obj s else .ok v
        | _ => .ok v
      | .arrE items =>
        match exMapM (fun e => computeValueGo exprOp accOp pathFn fuel obj e "")
            items with
        | .error m => .error m
        | .ok vs => .ok (.varr vs)
      | .objE entries =>
        cvObjLoop (fun o e k => computeValueGo exprOp accOp pathFn fuel o e k)
          (fun k => (exprOp k).isSome || (accOp k).isSome)
          obj entries.length entries []

theorem cvObjLoop_error (eval1 : Val → CExpr → String → Except String Val)
    (isOp : String → Bool) (obj : Val) (allLen : Nat)
    (hlen : (allLen == 1) = false) :
    ∀ (l : List (String × CExpr)) (acc : List (String × Val)),
    l.any (fun kv => isOp kv.1) = true →
    ∃ m, cvObjLoop eval1 isOp obj allLen l acc = .error m := by
  intro l
  induction l with
  | nil => intro acc h; simp at h
  | cons kv rest ih =>
    obtain ⟨key, e⟩ := kv
    intro acc h
    cases heval : eval1 obj e key with
    | error m => exact ⟨m, by simp [cvObjLoop, heval]⟩
    | ok r =>
      by_cases hk : isOp key = true
      · exact ⟨invalidAggMsg, by simp [cvObjLoop, heval, hk, hlen]⟩
      · have hk' : isOp key = false := by
          cases hb : isOp key
          · rfl
          · exact absurd hb hk
        have h' : rest.any (fun kv => isOp kv.1) = true := by
          simp only [List.any_cons, hk', Bool.false_or] at h
          exact h
        obtain ⟨m, hm⟩ := ih (acc ++ [(key, r)]) h'
        exact ⟨m, by simp [cvObjLoop, heval, hk', hm]⟩

/-- A sample expression-class registry holding one operator, `$literal`. -/
def c9ExprOp : String → Option CVOp :=
  fun k => if k == "$literal" then some (fun _ _ => .ok (.vint 42)) else none

/-- A sample empty accumulator-class registry. -/
def c9AccOp : String → Option CVOp := fun _ => none

/-- A sample variable/path resolver. -/
def c9PathFn : Val → String → Except String Val := fun _ _ => .ok .vnull

/-- C9: for every mapping expression evaluated by `computeValue` (for every
registry and path resolver), if some key of the mapping is registered as an
expression-class or accumulator-class operator then a mapping with more
than one key fails with an error, and a single-key mapping evaluates to
that key's computed value directly, not wrapped in a mapping under the
key. -/
theorem computeValue_one_operator_per_mapping
    (exprOp accOp : String → Option CVOp)
    (pathFn : Val → String → Except String Val)
    (fuel : Nat) (obj : Val) (entries : List (String × CExpr))
    (hop : entries.any (fun kv => (exprOp kv.1).isSome || (accOp kv.1).isSome)
      = true) :
    (1 < entries.length →
      ∃ m, computeValueGo exprOp accOp pathFn (fuel + 1) obj (.objE entries) ""
        = .error m)
    ∧ (∀ key e, entries = [(key, e)] →
        computeValueGo exprOp accOp pathFn (fuel + 1) obj (.objE entries) ""
          = computeValueGo exprOp accOp pathFn fuel obj e key) := by
  constructor
  · intro hlen
    have hne : (entries.length == 1) = false := by
      simp only [beq_eq_false_iff_ne]
      omega
    have hgo : computeValueGo exprOp accOp pathFn (fuel + 1) obj (.objE entries) ""
        = cvObjLoop (fun o e k => computeValueGo exprOp accOp pathFn fuel o e k)
            (fun k => (exprOp k).isSome || (accOp k).isSome)
            obj entries.length entries [] := rfl
    rw [hgo]
    exact cvObjLoop_error _ _ obj entries.length hne entries [] hop
  · intro key e hE
    subst hE
    have hiso : ((exprOp key).isSome || (accOp key).isSome) = true := by
      simpa using hop
    have hgo : computeValueGo exprOp accOp pathFn (fuel + 1) obj (.objE [(key, e)]) ""
        = cvObjLoop (fun o e k => computeValueGo exprOp accOp pathFn fuel o e k)
            (fun k => (exprOp k).isSome || (accOp k).isSome)
            obj 1 [(key, e)] [] := rfl
    rw [hgo]
    cases heval : computeValueGo exprOp accOp pathFn fuel obj e key with
    | error m => simp [cvObjLoop, heval]
    | ok r => simp [cvObjLoop, heval, hiso]

/-- C9 (witness): with a registry holding the expression operator
`$literal`, the two-key mapping falls in the error case and the theorem's
single-key clause is vacuously available, at concrete inputs. -/
theorem computeValue_one_operator_per_mapping_witness :
    ([("$literal", CExpr.lit (.vint 1)), ("b", CExpr.lit (.vint 2))].any
        (fun kv => (c9ExprOp kv.1).isSome || (c9AccOp kv.1).isSome) = true)
    ∧ ((1 < ([("$literal", CExpr.lit (.vint 1)),
            ("b", CExpr.lit (.vint 2))] : List (String × CExpr)).length →
        ∃ m, computeValueGo c9ExprOp c9AccOp c9PathFn (0 + 1) (.vobj [])
            (.objE [("$literal", .lit (.vint 1)), ("b", .lit (.vint 2))]) ""
          = .error m)
      ∧ (∀ key e,
          ([("$literal", CExpr.lit (.vint 1)), ("b", CExpr.lit (.vint 2))]
            : List (String × CExpr)) = [(key, e)] →
          computeValueGo c9ExprOp c9AccOp c9PathFn (0 + 1) (.vobj [])
              (.objE [("$literal", .lit (.vint 1)), ("b", .lit (.vint 2))]) ""
            = computeValueGo c9ExprOp c9AccOp c9PathFn 0 (.vobj []) e key)) :=
  ⟨rfl, computeValue_one_operator_per_mapping c9ExprOp c9AccOp c9PathFn 0 (.vobj [])
    [("$literal", .lit (.vint 1)), ("b", .lit (.vint 2))] rfl⟩

/-! ### The operator registry: `Context`, `getOperator`, `useOperators` -/

/-- The operator classes (`OperatorType`). -/
inductive OperatorType : Type where
  | accumulator | expression | pipeline | projection | query | window
  deriving Repr, DecidableEq

/-- The printed name of an operator class, as interpolated into the
collision message. -/
def opTypeName : OperatorType → String
  | .accumulator => "accumulator"
  | .expression => "expression"
  | .pipeline => "pipeline"
  | .projection => "projection"
  | .query => "query"
  | .window => "window"

/-- A context's operator store (`this.operators`): per-class
name-to-implementation bindings, as an association list keyed by class and
name; `F` is the implementation type (a function in the source, so
`isFunction` holds for every stored value). -/
abbrev Registry (F : Type) : Type := List (OperatorType × String × F)

/-- `Context.getOperator(type, name)`. -/
def ctxGetOperator {F : Type} : Registry F → OperatorType → String → Option F
  | [], _, _ => none
  | (t', n', f) :: rest, t, n =>
    if t' == t && n' == n then some f else ctxGetOperator rest t n

/-- `Context.addOperators(type, ops)`: a name already bound for the class
is silently skipped; an unbound name is appended. -/
def ctxAddOperators {F : Type} (r : Registry F) (t : OperatorType)
    (ops : List (String × F)) : Registry F :=
  ops.foldl
    (fun acc nf =>
      match ctxGetOperator acc t nf.1 with
      | some _ => acc
      | none => acc ++ [(t, nf.1, nf.2)])
    r

/-- The options argument of the free `getOperator(type, operator, options)`
(`null` is `none`). -/
structure GetOpOptions (F : Type) : Type where
  context : Option (Registry F)
  useGlobalContext : Bool

/-- The free `getOperator(type, operator, options)`: the options' own
context is consulted first and the global context only as a fallback when
the options request it; a `null` options object destructures to a `null`
context and a falsy fallback flag. -/
def getOperatorF {F : Type} (global : Registry F) (t : OperatorType)
    (name : String) (options : Option (GetOpOptions F)) : Option F :=
  let ctx := match options with | some o => o.context | none => none
  let fallback := match options with | some o => o.useGlobalContext | none => false
  let fn := match ctx with | some c => ctxGetOperator c t name | none => none
  if fn.isNone && fallback then ctxGetOperator global t name else fn

/-- `useOperators(type, operators)` on the global context, thrown asserts
as errors: every name must be operator-shaped (the `isFunction` half of the
assert holds by the type of `F`), the collision check probes
`getOperator(type, name, null)` with `null` options, and only then are the
operators handed to `addOperators`. -/
def useOperatorsM {F : Type} [BEq F] (global : Registry F) (t : OperatorType)
    (operators : List (String × F)) : Except String (Registry F) :=
  match checkOps global t operators with
  | .error m => .error m
  | .ok _ => .ok (ctxAddOperators global t operators)
where
  /-- The validation loop of `useOperators`. -/
  checkOps (global : Registry F) (t : OperatorType) :
      List (String × F) → Except String Unit
    | [] => .ok ()
    | (name, fn) :: rest =>
      if !(isOperator name) then
        .error ("'" ++ name ++ "' is not a valid operator")
      else
        match getOperatorF global t name none with
        | none => checkOps global t rest
        | some currentFn =>
          if fn == currentFn then checkOps global t rest
          else .error (name ++ " already exists for '" ++ opTypeName t ++
            "' operators. Cannot change operator function once registered.")

/-- C7: the collision guard of `useOperators` is dead code and
re-registration is a silent no-op, not the claimed fatal rejection: the
probe `getOperator(type, name, null)` is constantly `undefined` (its `null`
options yield no context and no global fallback), so registering a name
that is already bound — even to a different implementation — raises no
error; `addOperators` then silently skips the bound name, leaving the
registry unchanged.  (The claim's final consequence — the first binding
never changes — does hold, but through the silent skip, not an error.) -/
theorem operator_registry_collision_unchecked {F : Type} [BEq F]
    (global : Registry F) (t : OperatorType) (name : String) (f1 f2 : F)
    (hname : isOperator name = true)
    (hbound : ctxGetOperator global t name = some f1) :
    (∀ (g : Registry F) (t' : OperatorType) (n : String),
      getOperatorF g t' n none = none)
    ∧ useOperatorsM global t [(name, f2)] = .ok global := by
  constructor
  · intro g t' n
    rfl
  · have hprobe : getOperatorF global t name (none : Option (GetOpOptions F))
        = none := rfl
    simp only [useOperatorsM, useOperatorsM.checkOps, hname, Bool.not_true,
      Bool.false_eq_true, if_false, hprobe, ctxAddOperators, List.foldl_cons,
      List.foldl_nil, hbound]

/-- C7 (witness): a registry binding `$foo` to `1` accepts a conflicting
registration of `$foo` to `2` without error and keeps the old binding. -/
theorem operator_registry_collision_unchecked_witness :
    isOperator "$foo" = true
    ∧ ctxGetOperator [(OperatorType.query, "$foo", 1)] OperatorType.query "$foo"
        = some 1
    ∧ ((∀ (g : Registry Nat) (t' : OperatorType) (n : String),
          getOperatorF g t' n none = none)
      ∧ useOperatorsM [(OperatorType.query, "$foo", 1)] OperatorType.query
          [("$foo", 2)]
        = .ok [(OperatorType.query, "$foo", 1)]) :=
  ⟨rfl, rfl, operator_registry_collision_unchecked
    [(OperatorType.query, "$foo", 1)] OperatorType.query "$foo" 1 2 rfl rfl⟩

/-- C4 (counterexample): `$inc` through `items.$[x].qty` with the filter
`{"x.qty": {$gt: 5}}` on `{items: [{qty: 10}, {qty: 3}]}` increments only
the matching element, but the returned modified-paths list is `["items"]`
(the callback of `walkExpression` records `node.parent`), which does not
contain the claimed path `"items.qty"`. -/
theorem inc_array_filter_claim_counterexample :
    opInc (.vobj [("items", .varr [.vobj [("qty", .vint 10)], .vobj [("qty", .vint 3)]])])
        [("items.$[x].qty", .vint 1)] c4Filters
      = .ok (.vobj [("items",
            .varr [.vobj [("qty", .vint 11)], .vobj [("qty", .vint 3)]])],
          ["items"])
    ∧ ¬ ("items.qty" ∈ (["items"] : List String)) := ⟨rfl, by decide⟩

/-- C4 (amended): for every document whose `items` field holds an array, a
`$inc` of `1` addressed through `items.$[x].qty` with the array filter
`{"x.qty": {$gt: 5}}` rewrites exactly the elements matching the filter
through the `qty` tail walk, leaves non-matching elements unchanged, and
the returned modified-paths list is `["items"]` — the parent path, not
`"items.qty"` — exactly when some element matched and reported a change;
on a one-field element `{qty: n}` the filter holds iff `5 < n` and the tail
walk increments `qty` by `1` and reports a change. -/
theorem inc_array_filter_amended (fields : List (String × Val)) (elems : List Val)
    (hitems : alookup fields "items" = some (.varr elems)) :
    opInc (.vobj fields) [("items.$[x].qty", .vint 1)] c4Filters
      = .ok (.vobj (setField fields "items"
            (.varr (elems.map
              (fun e => if c4Match e then (c4ElemStep c4IncFn e).1 else e)))),
          if elems.any (fun e => c4Match e && (c4ElemStep c4IncFn e).2) then
            ["items"] else [])
    ∧ (∀ n : Int, c4Match (.vobj [("qty", .vint n)]) = decide (5 < n))
    ∧ (∀ n : Int, c4ElemStep c4IncFn (.vobj [("qty", .vint n)])
        = (.vobj [("qty", .vint (n + 1))], true)) :=
  ⟨c4_opInc fields elems hitems, c4Match_int, c4ElemStep_int⟩

/-- C4 (witness): the amended theorem applied at `{items: [{qty: 10}]}`. -/
theorem inc_array_filter_amended_witness :
    alookup [("items", Val.varr [Val.vobj [("qty", Val.vint 10)]])] "items"
        = some (Val.varr [Val.vobj [("qty", Val.vint 10)]])
    ∧ (opInc (.vobj [("items", .varr [.vobj [("qty", .vint 10)]])])
          [("items.$[x].qty", .vint 1)] c4Filters
        = .ok (.vobj (setField [("items", .varr [.vobj [("qty", .vint 10)]])] "items"
              (.varr ([.vobj [("qty", .vint 10)]].map
                (fun e => if c4Match e then (c4ElemStep c4IncFn e).1 else e)))),
            if [.vobj [("qty", .vint 10)]].any
                (fun e => c4Match e && (c4ElemStep c4IncFn e).2) then
              ["items"] else [])
        ∧ (∀ n : Int, c4Match (.vobj [("qty", .vint n)]) = decide (5 < n))
        ∧ (∀ n : Int, c4ElemStep c4IncFn (.vobj [("qty", .vint n)])
            = (.vobj [("qty", .vint (n + 1))], true))) :=
  ⟨rfl, inc_array_filter_amended [("items", .varr [.vobj [("qty", .vint 10)]])]
    [.vobj [("qty", .vint 10)]] rfl⟩

/-- C6 (counterexample): on the document `{a: "x"}`, `$inc` does raise the
non-numeric error, but `$bit` returns successfully reporting no change and
`$mul` returns successfully storing the coerced product `NaN` and
reporting the path — neither aborts as the claim requires. -/
theorem numeric_update_ops_claim_counterexample :
    opInc (.vobj [("a", .vstr "x")]) [("a", .vint 1)] []
      = .error "cannot apply $inc to a value of non-numeric type"
    ∧ opBit (.vobj [("a", .vstr "x")]) [("a", .vobj [("and", .vint 1)])] []
      = .ok (.vobj [("a", .vstr "x")], [])
    ∧ opMul (.vobj [("a", .vstr "x")]) [("a", .vint 2)] []
      = .ok (.vobj [("a", .vnan)], ["a"]) :=
  ⟨rfl, rfl, rfl⟩

/-- C6 (amended): for every document whose plain-named field holds an
existing non-numeric value, `$inc` raises the non-numeric runtime error,
while `$bit` completes without error reporting no change and leaving the
document unchanged, and `$mul` completes without error, overwriting the
field (with the JavaScript-coerced product, which the model's integral
number set cannot always represent, hence the existential; the
counterexample pins the stored NaN at a non-coercible string) and
reporting exactly the path as modified. -/
theorem numeric_update_ops_on_non_numeric (fields : List (String × Val))
    (k : String) (v : Val)
    (hsel : strIndexOfSub k ".$" = none) (hsplit : splitDot k = [k])
    (hv : alookup fields k = some v) (hnn : isNumber v = false) :
    opInc (.vobj fields) [(k, .vint 1)] []
      = .error "cannot apply $inc to a value of non-numeric type"
    ∧ opBit (.vobj fields) [(k, .vobj [("and", .vint 1)])] []
      = .ok (.vobj fields, [])
    ∧ (∃ w : Val, opMul (.vobj fields) [(k, .vint 2)] []
        = .ok (.vobj (setField fields k w), [k])) := by
  have htok := tokenizePath_simple hsel
  have hres : resolve (.vobj fields) k false = some v := by
    rw [resolve_single_obj fields k hsplit, hv]
  refine ⟨?_, ?_, ?_⟩
  · simp [opInc, walkExpressionM, htok, PathNode.child, PathNode.parent,
      hres, hnn]
  · have hjs : getKeyK (.vobj fields) (.inl k) = some v := hv
    simp [opBit, walkExpressionM, htok, PathNode.child, PathNode.parent,
      applyUpdate, applyUpdateGo, pnodeDepth, hsplit, walkW, isObject,
      hjs, isNumberO, hnn]
  · refine ⟨jsMul v (.vint 2), ?_⟩
    have hjs : getKeyK (.vobj fields) (.inl k) = some v := hv
    simp [opMul, walkExpressionM, htok, PathNode.child, PathNode.parent,
      applyUpdate, applyUpdateGo, pnodeDepth, hsplit, walkW, isObject,
      hjs, jsStrictEqO, jsStrictEq_jsMul_ne hnn, setKeyK]

/-- C6 (witness): the amended behaviour at the concrete document
`{a: true}` (a non-numeric boolean field). -/
theorem numeric_update_ops_on_non_numeric_witness :
    opInc (.vobj [("a", .vbool true)]) [("a", .vint 1)] []
      = .error "cannot apply $inc to a value of non-numeric type"
    ∧ opBit (.vobj [("a", .vbool true)]) [("a", .vobj [("and", .vint 1)])] []
      = .ok (.vobj [("a", .vbool true)], [])
    ∧ (∃ w : Val, opMul (.vobj [("a", .vbool true)]) [("a", .vint 2)] []
        = .ok (.vobj (setField [("a", .vbool true)] "a" w), ["a"])) :=
  numeric_update_ops_on_non_numeric [("a", .vbool true)] "a" (.vbool true)
    (by rfl) (by rfl) (by rfl) (by rfl)

theorem compileCondList_pair {A B : Cond} {pa pb : List QPred}
    (hA : compileCond A = .ok pa) (hB : compileCond B = .ok pb) :
    compileCondList [A, B] = .ok [pa, pb] := by
  simp [compileCondList, hA, hB]

/-- C2: the compiled query `{$or: [A, B]}` tests a document as true exactly
when the compiled `A` or the compiled `B` tests it as true, and the
compiled `{$nor: [A, B]}` tests it as true exactly when `{$or: [A, B]}`
tests it as false. -/
theorem or_nor_query_semantics (A B : Cond) (d : Val) (pa pb : List QPred)
    (hA : compileCond A = .ok pa) (hB : compileCond B = .ok pb) :
    queryTestE (.cond [.eor [A, B]]) d = .ok (testPreds pa d || testPreds pb d)
    ∧ queryTestE (.cond [.enor [A, B]]) d
        = .ok (!(testPreds pa d || testPreds pb d)) := by
  have hlist := compileCondList_pair hA hB
  constructor
  · simp [queryTestE, compileCond, compileEntries, hlist, withWhere, testPreds,
      Except.map]
  · simp [queryTestE, compileCond, compileEntries, hlist, withWhere, testPreds,
      Except.map]

/-- C2 (witness): with `A = {a: 1}`, `B = {b: 2}` and the document
`{b: 2}`, the `$or` and `$nor` identities hold at their computed values. -/
theorem or_nor_query_semantics_witness :
    queryTestE (.cond [.eor [.cond [.efield "a" (.bare (.vint 1))],
        .cond [.efield "b" (.bare (.vint 2))]]]) (.vobj [("b", .vint 2)])
      = .ok (testPreds [("$eq", createQueryPred "a" (fun a dep => qEq a (.vint 1) dep))]
            (.vobj [("b", .vint 2)])
          || testPreds [("$eq", createQueryPred "b" (fun a dep => qEq a (.vint 2) dep))]
            (.vobj [("b", .vint 2)]))
    ∧ queryTestE (.cond [.enor [.cond [.efield "a" (.bare (.vint 1))],
        .cond [.efield "b" (.bare (.vint 2))]]]) (.vobj [("b", .vint 2)])
      = .ok (!(testPreds [("$eq", createQueryPred "a" (fun a dep => qEq a (.vint 1) dep))]
            (.vobj [("b", .vint 2)])
          || testPreds [("$eq", createQueryPred "b" (fun a dep => qEq a (.vint 2) dep))]
            (.vobj [("b", .vint 2)]))) :=
  or_nor_query_semantics
    (.cond [.efield "a" (.bare (.vint 1))])
    (.cond [.efield "b" (.bare (.vint 2))])
    (.vobj [("b", .vint 2)]) _ _ rfl rfl

/-- C5: the `$where` clause is NOT deferred to a single trailing position.
Because the source checks `whereOperator.field` inside the compile loop,
the filter `{$where: f, a: 1}` compiles to the operator sequence
`["$where", "$eq", "$where"]`: the `$where` predicate is compiled first and
twice, contradicting "applied last, exactly once".  (With `$where` as the
last key the sequence is the expected `["$eq", "$where"]`; the duplication
appears whenever another key follows `$where`.) -/
theorem where_compiled_first_and_twice (f : Val → Val) :
    (compileCond (.cond [.ewhere f, .efield "a" (.bare (.vint 1))])).map
        (List.map Prod.fst)
      = .ok ["$where", "$eq", "$where"]
    ∧ (compileCond (.cond [.efield "a" (.bare (.vint 1)), .ewhere f])).map
        (List.map Prod.fst)
      = .ok ["$eq", "$where"] :=
  ⟨rfl, rfl⟩

theorem queryRemove_foldl (preds : List QPred) (l : List Val) (acc : List Val) :
    l.foldl (fun acc obj => if testPreds preds obj then acc else acc ++ [obj]) acc
      = acc ++ l.filter (fun d => !(testPreds preds d)) := by
  induction l generalizing acc with
  | nil => simp
  | cons x xs ih =>
    by_cases h : testPreds preds x <;> simp [h, ih]

/-- C10: `remove` returns a new array holding exactly the documents the
compiled query rejects, in their original relative order (the input list
itself is a separate immutable value in this model, matching the source's
`reduce` into a fresh array), and the collection facade's `remove` only
rebinds its internal `collection` reference to that new array. -/
theorem remove_nonmatching_in_order (c : Cond) (preds : List QPred)
    (coll : List Val) (hc : compileCond c = .ok preds) :
    removeD c coll = .ok (coll.filter (fun d => !(testPreds preds d)))
    ∧ collectionRemove c ⟨coll⟩
        = .ok (coll.filter (fun d => !(testPreds preds d)),
            ⟨coll.filter (fun d => !(testPreds preds d))⟩) := by
  have h1 : removeD c coll = .ok (coll.filter (fun d => !(testPreds preds d))) := by
    simp [removeD, hc, queryRemove, queryRemove_foldl, Except.map]
  exact ⟨h1, by simp [collectionRemove, h1, Except.map]⟩

/-- C10 (witness): removing `{b: 2}` from three documents keeps exactly the
one with `b = 4`, and the facade state is rebound to it. -/
theorem remove_nonmatching_in_order_witness :
    removeD (.cond [.efield "b" (.bare (.vint 2))])
        [.vobj [("a", .vint 1), ("b", .vint 2)],
         .vobj [("a", .vint 2), ("b", .vint 2)],
         .vobj [("a", .vint 3), ("b", .vint 4)]]
      = .ok ([.vobj [("a", .vint 1), ("b", .vint 2)],
         .vobj [("a", .vint 2), ("b", .vint 2)],
         .vobj [("a", .vint 3), ("b", .vint 4)]].filter
          (fun d => !(testPreds
            [("$eq", createQueryPred "b" (fun a dep => qEq a (.vint 2) dep))] d)))
    ∧ collectionRemove (.cond [.efield "b" (.bare (.vint 2))])
        ⟨[.vobj [("a", .vint 1), ("b", .vint 2)],
          .vobj [("a", .vint 2), ("b", .vint 2)],
          .vobj [("a", .vint 3), ("b", .vint 4)]]⟩
      = .ok ([.vobj [("a", .vint 1), ("b", .vint 2)],
          .vobj [("a", .vint 2), ("b", .vint 2)],
          .vobj [("a", .vint 3), ("b", .vint 4)]].filter
           (fun d => !(testPreds
             [("$eq", createQueryPred "b" (fun a dep => qEq a (.vint 2) dep))] d)),
          ⟨[.vobj [("a", .vint 1), ("b", .vint 2)],
            .vobj [("a", .vint 2), ("b", .vint 2)],
            .vobj [("a", .vint 3), ("b", .vint 4)]].filter
            (fun d => !(testPreds
              [("$eq", createQueryPred "b" (fun a dep => qEq a (.vint 2) dep))] d))⟩) :=
  remove_nonmatching_in_order (.cond [.efield "b" (.bare (.vint 2))]) _ _ rfl

/-- C8: `stringify` agrees with `isEqual` on acyclic documents — deep-equal
well-formed values produce identical canonical strings — and on any
self-referential document (a heap whose root can reach a revisited
reference) it fails with the dedicated cycle error instead of diverging:
the result is provably fuel-independent, so the recursion terminates with
exactly the cycle-detection error. -/
theorem stringify_equal_on_isEqual_and_cycle_error :
    (∀ a b : Val, wfVal a = true → wfVal b = true → isEqual a b = true →
      stringify a = stringify b)
    ∧ ∀ (h : Heap) (r : Nat), wfHeap h = true → r < h.nodes.length →
        cyclicFrom h r → stringifyH h r = .error cycleMsg := by
  constructor
  · exact fun a b hwa hwb h => stringify_congr a b hwa hwb h
  · intro h r hwf hr hcyc
    rcases strGo_fuel_classification hwf (h.nodes.length + 1) [] r
        List.nodup_nil (by simp) hr (by simp) with ⟨s, hs⟩ | hs
    · exfalso
      obtain ⟨tail, hpath, hnd⟩ := hcyc
      exact hnd (strGo_ok_path_nodup tail _ [] r s hs hpath).1
    · exact hs

/-- C8 (witness): two deep-equal objects with reordered keys stringify
identically, and the one-node self-referential document fails with the
cycle error. -/
theorem stringify_equal_on_isEqual_and_cycle_error_witness :
    stringify (.vobj [("b", .vint 1), ("a", .vint 2)])
      = stringify (.vobj [("a", .vint 2), ("b", .vint 1)])
    ∧ stringifyH ⟨[.hobj [("self", 0)]]⟩ 0 = .error cycleMsg :=
  ⟨stringify_equal_on_isEqual_and_cycle_error.1 _ _ (by decide) (by decide) (by decide),
   stringify_equal_on_isEqual_and_cycle_error.2 ⟨[.hobj [("self", 0)]]⟩ 0
     (by decide) (by decide)
     ⟨[0], ⟨⟨.hobj [("self", 0)], rfl, by decide⟩, trivial⟩, by decide⟩⟩

/-- C1 (counterexample): the claim puts null/undefined-keyed elements after
the sorted portion.  On the two-element input `[0, 1]` where element `0` has
a nil key and element `1` has key `true`, the claim forces the output
`[1, 0]` (sorted portion first, nil-keyed appended after), but `sortBy`
returns `[0, 1]`: the nil-keyed element comes first. -/
theorem sortBy_claim_counterexample :
    sortBy [0, 1] (fun x _ => if x = 0 then none else some true)
        (fun a b : Bool => (if a then 1 else 0) - (if b then 1 else 0)) = [0, 1]
    ∧ sortBy [0, 1] (fun x _ => if x = 0 then none else some true)
        (fun a b : Bool => (if a then 1 else 0) - (if b then 1 else 0)) ≠ [1, 0] := by
  constructor
  · rfl
  · decide

/-- C1 (amended): `sortBy` returns the null/undefined-keyed elements FIRST,
in their original relative order, followed by a stable sort of the keyed
elements: the keyed portion is a permutation of the keyed input elements,
sorted by the comparator, and any comparator-respecting pair (in particular
any equal-keyed pair) keeps its relative input order. -/
theorem sortBy_nil_keys_first {α K : Type} (collection : List α)
    (keyFn : α → Nat → Option K) (comparator : K → K → Int)
    (htrans : ∀ a b c : K, comparator a b ≤ 0 → comparator b c ≤ 0 → comparator a c ≤ 0)
    (htot : ∀ a b : K, comparator a b ≤ 0 ∨ comparator b a ≤ 0) :
    ∃ s : List (K × α),
      sortBy collection keyFn comparator
          = sortByNilPart collection keyFn ++ s.map Prod.snd
      ∧ s.Perm (sortByPairs collection keyFn)
      ∧ s.Pairwise (fun a b => comparator a.1 b.1 ≤ 0)
      ∧ ∀ x y : K × α, List.Sublist [x, y] (sortByPairs collection keyFn) →
          comparator x.1 y.1 ≤ 0 → List.Sublist [x, y] s := by
  haveI : IsTotal (K × α) (fun a b : K × α => comparator a.1 b.1 ≤ 0) :=
    ⟨fun a b => htot a.1 b.1⟩
  haveI : IsTrans (K × α) (fun a b : K × α => comparator a.1 b.1 ≤ 0) :=
    ⟨fun a b c hab hbc => htrans a.1 b.1 c.1 hab hbc⟩
  refine ⟨List.insertionSort (fun a b : K × α => comparator a.1 b.1 ≤ 0)
      (sortByPairs collection keyFn), ?_, ?_, ?_, ?_⟩
  · by_cases hc : collection.isEmpty
    · cases collection with
      | nil => simp [sortBy, sortByNilPart, sortByPairs]
      | cons a l => simp at hc
    · unfold sortBy
      rw [if_neg hc, sortBy_foldl_eq]
      simp only [List.nil_append, sortByNilPart, sortByPairs]
  · exact List.perm_insertionSort _ _
  · exact List.sorted_insertionSort _ _
  · intro x y hsub hle
    exact List.pair_sublist_insertionSort hle hsub

/-- C1 (witness): the amended theorem applied at the counterexample input. -/
theorem sortBy_nil_keys_first_witness :
    ∃ s : List (Bool × Nat),
      sortBy [0, 1] (fun x _ => if x = 0 then none else some true)
          (fun a b : Bool => (if a then 1 else 0) - (if b then 1 else 0))
          = sortByNilPart [0, 1] (fun x _ => if x = 0 then none else some true)
            ++ s.map Prod.snd
      ∧ s.Perm (sortByPairs [0, 1] (fun x _ => if x = 0 then none else some true))
      ∧ s.Pairwise
          (fun a b => (if a.1 then (1 : Int) else 0) - (if b.1 then 1 else 0) ≤ 0)
      ∧ ∀ x y : Bool × Nat,
          List.Sublist [x, y] (sortByPairs [0, 1] (fun x _ => if x = 0 then none else some true)) →
          (if x.1 then (1 : Int) else 0) - (if y.1 then 1 else 0) ≤ 0 → List.Sublist [x, y] s :=
  sortBy_nil_keys_first [0, 1] (fun x _ => if x = 0 then none else some true)
    (fun a b : Bool => (if a then 1 else 0) - (if b then 1 else 0))
    (by decide) (by decide)

end Mimo
